import Mathlib

/-!
# Verification of the CRA legal-clause matching frontend

Shallow embedding, in Lean 4, of the data model and the pure logic of the
`cra-legal-matching` repository (a Next.js frontend plus a FastAPI backend
that compares legal clauses against documents via an LLM service).

Conventions:
* TypeScript strings are modelled as Lean `String` where only whole-string
  operations occur, and as `List Char` where the code processes characters
  (CSV escaping, the bulk-clause parser, Excel sheet-name construction).
* `fetch` responses are modelled by their observable data: an HTTP status
  code (`Nat`) and, where read, a parsed body.
* JavaScript record objects iterated with `Object.keys`/`Object.entries`
  preserve string-key insertion order; they are modelled as association
  lists that append new keys at the end.
-/

namespace CraLegal

/-! ## Data model (`src/frontend/lib/types.ts`) -/

/-- `AnalysisResult.classification`:
`"IDENTICAL" | "SIMILAR" | "NOT_PRESENT" | "ERROR"`. -/
inductive Classification where
  | IDENTICAL
  | SIMILAR
  | NOT_PRESENT
  | ERROR
deriving DecidableEq, Repr

/-- The string literal carried by each classification value. -/
def Classification.label : Classification → String
  | .IDENTICAL => "IDENTICAL"
  | .SIMILAR => "SIMILAR"
  | .NOT_PRESENT => "NOT_PRESENT"
  | .ERROR => "ERROR"

/-- JS whitespace (`\s`, and the characters `String.prototype.trim`
removes), on the ASCII inputs of interest. -/
def isWS (c : Char) : Bool := c.isWhitespace

/-- JS `trim`, on char lists (Lean's own `String.trim` is built on
well-founded `Substring` recursion and does not evaluate in the kernel, so
strings are trimmed through their character lists throughout). -/
def trimChars (l : List Char) : List Char :=
  ((l.dropWhile isWS).reverse.dropWhile isWS).reverse

/-- `Difference` from `types.ts`. -/
structure Difference where
  aspect : String
  apple : String
  theirs : String
deriving DecidableEq, Repr

/-- `Match` from `types.ts` (`type` is one of the non-ERROR classifications,
modelled with the same enum; the `section` field is renamed `section_` since
`section` is a Lean keyword). -/
structure MatchRec where
  type : Classification
  aspect_label : Option String
  page : Option Int
  section_ : String
  section_title : String
  paragraph : Option Int
  full_text : String
  differences : List Difference
  legal_note : String
deriving DecidableEq, Repr

/-- `Aspect` from `types.ts`. -/
structure Aspect where
  label : String
  description : String
deriving DecidableEq, Repr

/-- `AnalysisResult` from `types.ts`.  The export code additionally reads an
undeclared `_clause_idx` field (`(result as any)._clause_idx`), modelled as
an optional `clause_idx`; `_aspects` is the optional `aspects` field, and
`matches` is renamed `matches_` (reserved word). -/
structure AnalysisResult where
  classification : Classification
  summary : String
  matches_ : List MatchRec
  analysis : String
  error : Option String
  pdf_filename : String
  apple_clause : String
  aspects : Option (List Aspect)
  clause_idx : Option Nat
deriving DecidableEq, Repr

/-- `ProgressEvent` from `types.ts`. -/
structure ProgressEvent where
  completed : Nat
  total : Nat
  current_item : String
  done : Bool
  error : Option String
  results : List AnalysisResult
deriving DecidableEq, Repr

/-! ## Client API (`src/frontend/lib/api.ts`) -/

/-- Observable outcome of the `fetch` in `validatePassword`: either a network
failure (the `catch` branch) or a response with an HTTP status code. -/
inductive FetchOutcome where
  | networkError
  | response (status : Nat)
deriving DecidableEq, Repr

/-- `res.ok` in the Fetch API: status in the range 200–299. -/
def statusOk (status : Nat) : Bool :=
  200 ≤ status && status ≤ 299

/-- `validatePassword` (`api.ts` lines 23–51), as a function of the observable
fetch outcome: `401` yields `false`; any other status yields
`status === 400 || status === 200`; a thrown network error yields `false`. -/
def validatePassword : FetchOutcome → Bool
  | .networkError => false
  | .response status =>
      if status = 401 then false
      else status = 400 || status = 200

/-- Outcome of `startAnalysis` (`api.ts` lines 55–88) as a function of the
response status and the resolved error detail.  `detail` models
`body.detail || ⟨fallback⟩`: the `detail` field of the parsed JSON body when
present and truthy (the parse failure branch substitutes
`{ detail: res.statusText }`), with the empty string standing for a falsy
detail.  `.error m` models `throw new Error(m)`; `.ok` models returning the
parsed `AnalyzeResponse`. -/
def startAnalysis (status : Nat) (detail : String) : Except String Unit :=
  if status = 401 then .error "AUTH_REQUIRED"
  else if !statusOk status then
    .error (if detail = "" then "Request failed: " ++ toString status else detail)
  else .ok ()

/-! ## SSE subscription (`src/frontend/lib/api.ts`, `subscribeProgress`) -/

/-- State of one `subscribeProgress` subscription: whether the `EventSource`
has been closed, and the events passed to `onProgress` so far, in order. -/
structure SubscriberState where
  closed : Bool
  delivered : List ProgressEvent
deriving DecidableEq, Repr

/-- Initial subscription state: the `EventSource` is open, nothing delivered. -/
def initSubscriber : SubscriberState :=
  { closed := false, delivered := [] }

/-- One incoming `progress` message (`api.ts` lines 99–109).  A closed
`EventSource` fires no listeners, so the event is dropped; otherwise the
handler calls `onProgress(data)` and then closes the source when
`data.done` holds. -/
def subscribeStep (st : SubscriberState) (ev : ProgressEvent) : SubscriberState :=
  if st.closed then st
  else { closed := ev.done, delivered := st.delivered ++ [ev] }

/-- Folding a whole incoming event sequence through the subscription. -/
def subscribeRun (evs : List ProgressEvent) : SubscriberState :=
  evs.foldl subscribeStep initSubscriber

/-! ## `useAnalysis` hook (`src/hooks/use-analysis.ts`) -/

/-- `AnalysisState` from the `useAnalysis` hook. -/
structure AnalysisState where
  loading : Bool
  completed : Nat
  total : Nat
  currentItem : String
  results : List AnalysisResult
  error : Option String
deriving DecidableEq, Repr

/-- The reset state installed by `run` before subscribing. -/
def runInitState : AnalysisState :=
  { loading := true, completed := 0, total := 0,
    currentItem := "Starting analysis…", results := [], error := none }

/-- The `setState` updater applied per delivered `ProgressEvent`
(`use-analysis.ts` lines 45–55): `results` is taken from the event only when
`ev.done`, otherwise the previous value is kept. -/
def applyProgress (prev : AnalysisState) (ev : ProgressEvent) : AnalysisState :=
  { prev with
    completed := ev.completed,
    total := ev.total,
    currentItem := ev.current_item,
    results := if ev.done then ev.results else prev.results,
    loading := !ev.done,
    error := ev.error }

/-! ## Submission handler (`src/app/page.tsx`, `handleAnalyze`) -/

/-- The `linkList` memo: split the textarea on newlines, trim each line and
keep those starting with `"http"`. -/
def deriveLinkList (htmlLinks : String) : List String :=
  (((htmlLinks.data.splitOn '\n').map trimChars).filter
    (fun l => "http".data.isPrefixOf l)).map List.asString

/-- Observable outcome of `handleAnalyze`: either an error toast (and early
return, so `analysis.run` is never invoked and no job is requested), or the
`analysis.run(nonEmpty, linkList, files, …)` call with its arguments. -/
inductive HandleOutcome where
  | validationError (msg : String)
  | run (clauses : List String) (links : List String) (files : List String)
deriving DecidableEq, Repr

/-- `handleAnalyze` (`page.tsx` lines 107–118).  Files are modelled by their
names only; nothing in the handler looks inside them. -/
def handleAnalyze (clauses : List String) (files : List String)
    (htmlLinks : String) : HandleOutcome :=
  let linkList := deriveLinkList htmlLinks
  let nonEmpty := clauses.filter (fun c => trimChars c.data ≠ [])
  if nonEmpty.length = 0 then
    .validationError "Enter at least one clause."
  else if files.length = 0 ∧ linkList.length = 0 then
    .validationError "Upload at least one PDF or provide an HTML link."
  else
    .run nonEmpty linkList files

/-! ## Job orchestrator (spec-modelled)

The backend (`backend/main.py`, FastAPI) is not under `src/`; only its
frontend callers are.  The orchestrator is modelled from the spec. -/

/-- Modelled from the spec: the terminal outcome of one (clause, source)
Task of the missing backend orchestrator.  Per §4.2 the executor never
throws: a failure (load error, analysis error, timeout) is captured as a
message; a success carries the parsed classification and payload. -/
inductive TaskOutcome where
  | success (c : Classification) (summary : String)
      (ms : List MatchRec) (analysis : String)
  | failure (msg : String)

/-- Modelled from the spec: the Result recorded for one Task (§4.2, §7) —
a success is passed through, any failure becomes a Result with
classification ERROR carrying the error message. -/
def taskResult (clause source : String) : TaskOutcome → AnalysisResult
  | .success c s ms a =>
      { classification := c, summary := s, matches_ := ms, analysis := a,
        error := none, pdf_filename := source, apple_clause := clause,
        aspects := none, clause_idx := none }
  | .failure m =>
      { classification := .ERROR, summary := "", matches_ := [],
        analysis := "", error := some m, pdf_filename := source,
        apple_clause := clause, aspects := none, clause_idx := none }

/-- Modelled from the spec: the ordered Result list of a Job (§4.3, §5) —
one Result per (clause, source) pair, in (clause-index, source-index) grid
order, whatever each task's outcome was. -/
def jobResults (clauses sources : List String)
    (outcome : Nat → Nat → TaskOutcome) : List AnalysisResult :=
  (List.range clauses.length).flatMap fun i =>
    (List.range sources.length).map fun j =>
      taskResult (clauses.getD i "") (sources.getD j "") (outcome i j)

/-- Modelled from the spec: `submit` validation (§4.3) — at least one
non-empty clause, at least one source, clause count within the 1–10 bound;
violations fail synchronously before a Job exists. -/
def submitJob (clauses sources : List String)
    (outcome : Nat → Nat → TaskOutcome) : Except String (List AnalysisResult) :=
  if clauses.all (fun c => trimChars c.data = []) then
    .error "at least one non-empty clause required"
  else if sources.isEmpty then
    .error "at least one source required"
  else if clauses.length > 10 then
    .error "clause count out of bounds"
  else
    .ok (jobResults clauses sources outcome)

/-- Modelled from the spec: the terminal ProgressEvent (§4.4) — `done` set,
completed = total = C×S, carrying the full ordered Result list. -/
def terminalEvent (clauses sources : List String)
    (outcome : Nat → Nat → TaskOutcome) : ProgressEvent :=
  { completed := clauses.length * sources.length,
    total := clauses.length * sources.length,
    current_item := "",
    done := true,
    error := none,
    results := jobResults clauses sources outcome }

/-! ## Grouping by clause (`page.tsx` `clauseGroups`, `excel-export.ts`,
`pdf-export.ts`, `csv-export.ts`)

All four sites build a `Record<string, AnalysisResult[]>` keyed by
`apple_clause` by iterating the results in order; JS objects preserve
string-key insertion order, so the record is an association list whose keys
appear in order of first appearance. -/

/-- One step of the grouping loop: `if (!groups[key]) groups[key] = [];
groups[key].push(r)`. -/
def pushToGroup (acc : List (String × List AnalysisResult))
    (r : AnalysisResult) : List (String × List AnalysisResult) :=
  if acc.any (fun p => p.1 == r.apple_clause) then
    acc.map (fun p => if p.1 == r.apple_clause then (p.1, p.2 ++ [r]) else p)
  else
    acc ++ [(r.apple_clause, [r])]

/-- The clause-grouping record, as built by `page.tsx` lines 137–145 and
`excel-export.ts` lines 11–28 (and the analogous loops in the PDF and CSV
exports). -/
def clauseGroups (rs : List AnalysisResult) : List (String × List AnalysisResult) :=
  rs.foldl pushToGroup []

/-- The first-appearance key order (`clauseOrder` in `csv-export.ts` lines
49–56, `excel-export.ts` line 12, `pdf-export.ts` line 61). -/
def clauseOrderOf (rs : List AnalysisResult) : List String :=
  rs.foldl (fun ks r => if ks.contains r.apple_clause then ks
                        else ks ++ [r.apple_clause]) []

/-- `clauseIndices[clause]` in the PDF and Excel exports: at a clause's first
appearance, its result's `_clause_idx` field (if defined) is recorded. -/
def clauseIndices (rs : List AnalysisResult) (k : String) : Option Nat :=
  match rs.find? (fun r => r.apple_clause == k) with
  | some r => r.clause_idx
  | none => none

/-- The sort key `clauseIndices[a] ?? clauseOrder.indexOf(a)` used by the
PDF and Excel exports. -/
def effectiveIdx (rs : List AnalysisResult) (k : String) : Nat :=
  match clauseIndices rs k with
  | some i => i
  | none => (clauseOrderOf rs).indexOf k

/-- `sortedClauses` in `pdf-export.ts` lines 78–82 and `excel-export.ts`
lines 31–35: the first-appearance order, stably sorted by the effective
index.  JS `Array.prototype.sort` is stable and the comparator
`idxA - idxB` is a total preorder on the keys, so any stable sort computes
the same list; it is embedded as a stable insertion sort (which also
evaluates inside the kernel). -/
def sortedClauses (rs : List AnalysisResult) : List String :=
  (clauseOrderOf rs).insertionSort
    (fun a b => effectiveIdx rs a ≤ effectiveIdx rs b)

/-- The clause-group order claimed by the spec for exports, written from the
spec's words: groups "ordered by the clause's original index — by the
`_clause_idx` field when it is present, otherwise by order of first
appearance of the clause text in the results list".  (Stated for comparison
with the orders the export code actually uses.) -/
def claimedExportOrder (rs : List AnalysisResult) : List String :=
  (clauseOrderOf rs).insertionSort
    (fun a b => effectiveIdx rs a ≤ effectiveIdx rs b)

/-! ## CSV field escaping (`src/frontend/lib/csv-export.ts`, `esc`)

Strings are modelled as `List Char`.  `esc` receives string values (the
`v == null` guard never fires on strings and is not modelled). -/

/-- `s.includes(",") || s.includes('"') || s.includes("\n") || s.includes("\r")`. -/
def needsQuoting (s : List Char) : Bool :=
  s.any fun c => c = ',' || c = '"' || c = '\n' || c = '\r'

/-- `s.replace(/"/g, '""')`: double every double quote. -/
def escInner (s : List Char) : List Char :=
  s.flatMap fun c => if c = '"' then ['"', '"'] else [c]

/-- One value of `esc`: wrap in double quotes (doubling internal quotes) when
the value contains a comma, quote, newline or carriage return; otherwise
emit it verbatim. -/
def escField (s : List Char) : List Char :=
  if needsQuoting s then '"' :: (escInner s ++ ['"']) else s

/-- `esc(values)`: escape each value and join with commas. -/
def escRow (vs : List (List Char)) : List Char :=
  List.intercalate [','] (vs.map escField)

/-- Reading one quoted CSV field (the text after the opening quote):
a doubled quote is a literal quote, a lone quote closes the field, after
which a comma starts the next field and end-of-input ends the row (trailing
characters before the next comma are taken verbatim, a lenient completion
that well-formed input never exercises).  Returns the field text and
`some rest` when a comma follows, `none` at end of row. -/
def parseQuoted : List Char → List Char → List Char × Option (List Char)
  | [], acc => (acc, none)
  | c :: rest, acc =>
      if c = '"' then
        match rest with
        | [] => (acc, none)
        | c2 :: rest2 =>
            if c2 = '"' then parseQuoted rest2 (acc ++ ['"'])
            else if c2 = ',' then (acc, some rest2)
            else
              (acc ++ (c2 :: rest2).takeWhile (fun x => x ≠ ','),
               match (c2 :: rest2).dropWhile (fun x => x ≠ ',') with
               | [] => none
               | _ :: t => some t)
      else parseQuoted rest (acc ++ [c])

/-- Reading one CSV field: a field opening with a double quote is read
quoted; any other field runs verbatim up to the next comma or end of row. -/
def parseField : List Char → List Char × Option (List Char)
  | [] => ([], none)
  | c :: rest =>
      if c = '"' then parseQuoted rest []
      else
        ((c :: rest).takeWhile (fun x => x ≠ ','),
         match (c :: rest).dropWhile (fun x => x ≠ ',') with
         | [] => none
         | _ :: t => some t)

/-- Reading a whole CSV row, fuelled (each step past a comma strictly
shrinks the input, so `length + 1` fuel always suffices). -/
def parseRowAux : Nat → List Char → List (List Char)
  | 0, _ => []
  | fuel + 1, cs =>
      match parseField cs with
      | (f, none) => [f]
      | (f, some rest) => f :: parseRowAux fuel rest

/-- Parse a CSV row into its list of field values under the CSV reading
rules matching the writer conventions of `esc`. -/
def parseCSVRow (cs : List Char) : List (List Char) :=
  parseRowAux (cs.length + 1) cs

/-! ## Bulk clause parser (`src/frontend/lib/clause-parser.ts`)

The two regular expressions (`TITLE_RE`, `SECTION_REF_RE`) are embedded
with a small backtracking matcher over `List Char`.  A matcher maps an
input to the list of possible remainders, in the priority order a
backtracking regex engine explores them (greedy first); the first remainder
whose continuation succeeds wins. -/

/-- Matchers: input ↦ candidate remainders, highest priority first. -/
def Matcher : Type := List Char → List (List Char)

/-- JS `\w`: ASCII letters, digits and underscore. -/
def isWordChar (c : Char) : Bool := c.isAlphanum || c = '_'

/-- JS `[\d.]`. -/
def isDigitDot (c : Char) : Bool := c.isDigit || c = '.'

/-- Case-insensitive literal (the regexes carry the `/i` flag); consumes
exactly the literal. -/
def matchLitCI : List Char → List Char → Option (List Char)
  | [], cs => some cs
  | _, [] => none
  | l :: ls, c :: cs => if c.toLower = l.toLower then matchLitCI ls cs else none

/-- Literal token matcher. -/
def mlit (lit : String) : Matcher :=
  fun cs => match matchLitCI lit.data cs with
    | some r => [r]
    | none => []

/-- Sequencing: all continuations of the first part, in priority order. -/
def mseq (a b : Matcher) : Matcher :=
  fun cs => (a cs).flatMap b

/-- Alternation, left alternative preferred. -/
def malt (a b : Matcher) : Matcher :=
  fun cs => a cs ++ b cs

/-- Greedy option `(?:…)?`: with the group first, then without. -/
def mopt (a : Matcher) : Matcher :=
  fun cs => a cs ++ [cs]

/-- Greedy character class plus, `[…]+`: all nonempty prefixes of the
maximal run, longest first. -/
def mcls1 (p : Char → Bool) : Matcher :=
  fun cs =>
    let n := (cs.takeWhile p).length
    (List.range n).map fun k => cs.drop (n - k)

/-- `\s*` in positions where no backtracking into it is possible
(the following token never begins with whitespace): maximal munch. -/
def ws0 : Matcher :=
  fun cs => [cs.dropWhile isWS]

/-- Greedy star `(?:…)*` (iterations must consume input, as in a regex
engine's empty-match check), fuelled by the input length. -/
def mstarAux (a : Matcher) : Nat → List Char → List (List Char)
  | 0, cs => [cs]
  | fuel + 1, cs =>
      (((a cs).filter fun r => r.length < cs.length).flatMap
        (mstarAux a fuel)) ++ [cs]

/-- Greedy star `(?:…)*`. -/
def mstar (a : Matcher) : Matcher :=
  fun cs => mstarAux a cs.length cs

/-- `Schedule\s+\d+(?:\.\d+)*\s*,\s*`. -/
def schedulePart : Matcher :=
  mseq (mlit "Schedule") (mseq (mcls1 isWS) (mseq (mcls1 Char.isDigit)
    (mseq (mstar (mseq (mlit ".") (mcls1 Char.isDigit)))
      (mseq ws0 (mseq (mlit ",") ws0)))))

/-- `Exhibit\s+\w+\s*,\s*`. -/
def exhibitPart : Matcher :=
  mseq (mlit "Exhibit") (mseq (mcls1 isWS) (mseq (mcls1 isWordChar)
    (mseq ws0 (mseq (mlit ",") ws0))))

/-- `\s+of\s+Schedule\s+\d+(?:\s+and\s+\d+)?`. -/
def ofSchedulePart : Matcher :=
  mseq (mcls1 isWS) (mseq (mlit "of") (mseq (mcls1 isWS)
    (mseq (mlit "Schedule") (mseq (mcls1 isWS) (mseq (mcls1 Char.isDigit)
      (mopt (mseq (mcls1 isWS) (mseq (mlit "and")
        (mseq (mcls1 isWS) (mcls1 Char.isDigit))))))))))

/-- The capture group of `SECTION_REF_RE`:
`(?:Schedule…)?(?:Exhibit…)?(?:Section|Article)\s+[\d.]+(?:\.\w+)*(?:\s+of\s+Schedule…)?`. -/
def sectionRefGroup : Matcher :=
  mseq (mopt schedulePart) (mseq (mopt exhibitPart)
    (mseq (malt (mlit "Section") (mlit "Article"))
      (mseq (mcls1 isWS) (mseq (mcls1 isDigitDot)
        (mseq (mstar (mseq (mlit ".") (mcls1 isWordChar)))
          (mopt ofSchedulePart))))))

/-- The trailing `\s*:\s*` of `SECTION_REF_RE` (outside the group): after
the group, whitespace, a colon, then whitespace.  Returns the text after
the colon (whitespace not yet dropped). -/
def tailColon (r : List Char) : Option (List Char) :=
  match r.dropWhile isWS with
  | ':' :: t => some t
  | _ => none

/-- `trimmed.match(SECTION_REF_RE)` (anchored at `^`): the first candidate
split of the capture group whose continuation matches `\s*:\s*` wins.
Returns `match[1]` and the text after the colon. -/
def matchSectionRef (cs : List Char) : Option (List Char × List Char) :=
  (sectionRefGroup cs).findSome? fun r =>
    (tailColon r).map fun t => (cs.take (cs.length - r.length), t)

/-- One candidate position for `TITLE_RE = /^(.+\bClause\s*):?\s*$/i`:
does `Clause` occur at index `i` (with `i ≥ 1` for the `.+`, a non-word
character before it for the `\b`), followed by whitespace, an optional
colon and trailing whitespace to the end?  Returns `match[1]` (everything
through the whitespace after `Clause`). -/
def titleMatchAt (l : List Char) (i : Nat) : Option (List Char) :=
  if i = 0 then none
  else
    match matchLitCI "clause".data (l.drop i) with
    | none => none
    | some r =>
        if (l.getD (i - 1) ' ' ).isAlphanum || l.getD (i - 1) ' ' = '_' then none
        else
          let ws := r.takeWhile isWS
          let r2 := r.dropWhile isWS
          let ok := match r2 with
            | [] => true
            | ':' :: t => t.all isWS
            | _ => false
          if ok then some (l.take (i + 6 + ws.length)) else none

/-- `trimmed.match(TITLE_RE)`: the greedy `.+` means the rightmost viable
`Clause` occurrence wins. -/
def titleMatch (l : List Char) : Option (List Char) :=
  ((List.range l.length).reverse).findSome? (titleMatchAt l)

/-- `ParsedClause` from `clause-parser.ts`; strings as `List Char`. -/
structure ParsedClause where
  title : List Char
  sectionRef : List Char
  body : List Char
  fullText : List Char
deriving DecidableEq, Repr

/-- `body.replace(/^["“]|["”]$/g, "")`: remove one leading
straight/left-curly quote and one trailing straight/right-curly quote. -/
def stripQuotes (b : List Char) : List Char :=
  let b1 := match b with
    | c :: t => if c = '"' || c = '“' then t else b
    | [] => []
  match b1.getLast? with
  | some c => if c = '"' || c = '”' then b1.dropLast else b1
  | none => b1

/-- Mutable state of the `parseBulkClauses` line loop. -/
structure ParseState where
  currentTitle : List Char
  currentSectionRef : List Char
  currentBody : List Char
  inSection : Bool
  results : List ParsedClause

/-- The `ParsedClause` that `flushSection` pushes: the body is trimmed,
stripped of surrounding quotes and trimmed again; `fullText` is rebuilt
from title, section ref and clean body
(`` `${titlePart}${currentSectionRef}: "${cleanBody}"` ``). -/
def flushedClause (st : ParseState) : ParsedClause :=
  let body := trimChars st.currentBody
  let cleanBody := trimChars (stripQuotes body)
  let titlePart :=
    if st.currentTitle ≠ [] then st.currentTitle ++ [':', '\n'] else []
  { title := st.currentTitle, sectionRef := st.currentSectionRef,
    body := cleanBody,
    fullText :=
      titlePart ++ st.currentSectionRef ++ [':', ' ', '"'] ++ cleanBody ++ ['"'] }

/-- `flushSection`: emit a clause when a section reference is pending and
its body is nonblank, then clear the section state. -/
def flushSection (st : ParseState) : ParseState :=
  let st' :=
    if st.currentSectionRef ≠ [] ∧ trimChars st.currentBody ≠ [] then
      { st with results := st.results ++ [flushedClause st] }
    else st
  { st' with currentSectionRef := [], currentBody := [], inSection := false }

/-- The body of the `for` loop over lines. -/
def parseLine (st : ParseState) (line : List Char) : ParseState :=
  let trimmed := trimChars line
  if trimmed = [] then st
  else
    match titleMatch trimmed with
    | some g1 =>
        let st := flushSection st
        let t0 := trimChars g1
        let t1 := if t0.getLast? = some ':' then trimChars t0.dropLast else t0
        { st with currentTitle := t1 }
    | none =>
        match matchSectionRef trimmed with
        | some (g1, afterColon) =>
            let st := flushSection st
            { st with
              currentSectionRef := trimChars g1,
              currentBody := trimChars afterColon,
              inSection := true }
        | none =>
            if st.inSection then
              { st with currentBody := st.currentBody ++ '\n' :: trimmed }
            else st

/-- `parseBulkClauses` (`clause-parser.ts` lines 72–146). -/
def parseBulkClauses (text : String) : List ParsedClause :=
  let lines := text.data.splitOn '\n'
  (flushSection (lines.foldl parseLine
    { currentTitle := [], currentSectionRef := [], currentBody := [],
      inSection := false, results := [] })).results

/-! ## Excel sheet names (`src/frontend/lib/excel-export.ts`, lines 143–193) -/

/-- Decimal digits, fuelled (structural, so it evaluates in the kernel;
the fuel `n` always covers the digit count of `n`). -/
def natCharsAux : Nat → Nat → List Char
  | 0, _ => []
  | fuel + 1, n =>
      if n < 10 then [Char.ofNat (48 + n)]
      else natCharsAux fuel (n / 10) ++ [Char.ofNat (48 + n % 10)]

/-- Decimal rendering of a positive number, as JS `${n}` produces it. -/
def natChars (n : Nat) : List Char :=
  natCharsAux n n

/-- The characters Excel forbids in sheet names, `/[\\/?*\[\]:]/`. -/
def sheetBadChar (c : Char) : Bool :=
  c = '\\' || c = '/' || c = '?' || c = '*' || c = '[' || c = ']' || c = ':'

/-- `` `Clause ${clauseNum}` ``. -/
def clauseNumName (clauseNum : Nat) : List Char :=
  "Clause ".data ++ natChars clauseNum

/-- Sheet-name construction, step 1 (`excel-export.ts` lines 148–166):
trim, drop a trailing ellipsis, and build `` `Clause ${n}: ${shortText}` ``
from the first line's first 20 characters (falling back to
`` `Clause ${n}` `` when blank). -/
def sheetNameRaw (clause : List Char) (clauseNum : Nat) : List Char :=
  let t := trimChars clause
  if t = [] ∨ t = ['…'] then clauseNumName clauseNum
  else
    let t2 := if t.getLast? = some '…' then t.dropLast else t
    let firstLine := trimChars ((t2.takeWhile (· ≠ '\n')).takeWhile (· ≠ '\r'))
    let shortText := if firstLine.length > 20 then firstLine.take 20 else firstLine
    if shortText.length > 0 then
      clauseNumName clauseNum ++ ':' :: ' ' :: shortText
    else clauseNumName clauseNum

/-- `sheetName.replace(/[\\/?*\[\]:]/g, "_")` (`excel-export.ts` line 169). -/
def sheetNameReplaced (name : List Char) : List Char :=
  name.map fun c => if sheetBadChar c then '_' else c

/-- Truncation to Excel's 31-character limit (`excel-export.ts` lines
172–174). -/
def sheetNameTrunc (name : List Char) : List Char :=
  if (sheetNameReplaced name).length > 31 then (sheetNameReplaced name).take 31
  else sheetNameReplaced name

/-- Sheet-name construction, step 2 (`excel-export.ts` lines 168–179):
replace forbidden characters with underscores, truncate to 31 characters,
and fall back to `` `Clause ${n}` `` when blank. -/
def sheetNameFinalize (name : List Char) (clauseNum : Nat) : List Char :=
  if trimChars (sheetNameTrunc name) = [] then clauseNumName clauseNum
  else sheetNameTrunc name

/-- The full sheet-name construction for one clause. -/
def sheetNameFor (clause : List Char) (clauseNum : Nat) : List Char :=
  sheetNameFinalize (sheetNameRaw clause clauseNum) clauseNum

/-- The `while (workbook.SheetNames.includes(finalSheetName))` loop
(`excel-export.ts` lines 182–190): try `` `${baseName}_${counter}` `` for
`counter = 1, 2, …`; the safety check breaks out — returning the name
unchecked — once `counter` passes 100.  Fuelled; the loop body runs at most
100 times, so fuel 101 is exact. -/
def pickLoopAux (bn : List Char) (taken : List (List Char)) :
    Nat → Nat → List Char → List Char
  | 0, _, cur => cur
  | fuel + 1, counter, cur =>
      if cur ∈ taken then
        let next := bn ++ '_' :: natChars counter
        if counter + 1 > 100 then next
        else pickLoopAux bn taken fuel (counter + 1) next
      else cur

/-- The final deduplicated sheet name for one clause, given the names
already in the workbook. -/
def finalSheetNameFor (sheetName : List Char) (taken : List (List Char)) :
    List Char :=
  let bn := if sheetName.length > 25 then sheetName.take 25 else sheetName
  pickLoopAux bn taken 101 1 (trimChars sheetName)

/-- `clauseIndices[clause] ?? sortedClauses.indexOf(clause)`
(`excel-export.ts` line 145). -/
def excelClauseIdx (rs : List AnalysisResult) (clause : String) : Nat :=
  match clauseIndices rs clause with
  | some i => i
  | none => (sortedClauses rs).indexOf clause

/-- The workbook's `SheetNames`, in the order `exportResultsToExcel` appends
them: one sheet per clause of `sortedClauses`. -/
def sheetNames (rs : List AnalysisResult) : List (List Char) :=
  (sortedClauses rs).foldl
    (fun acc clause =>
      acc ++ [finalSheetNameFor
        (sheetNameFor clause.data (excelClauseIdx rs clause + 1)) acc]) []

/-! ## Example inputs used by witnesses and counterexamples -/

/-- A minimal `AnalysisResult` with the fields the grouping/export logic
reads; everything else defaulted. -/
def sampleResult (clause fname : String) (idx : Option Nat) : AnalysisResult :=
  { classification := .SIMILAR, summary := "s", matches_ := [],
    analysis := "", error := none, pdf_filename := fname,
    apple_clause := clause, aspects := none, clause_idx := idx }

/-- A non-terminal progress event. -/
def evMid : ProgressEvent :=
  { completed := 1, total := 2, current_item := "Analyzing clause 1…",
    done := false, error := none, results := [] }

/-- A terminal progress event carrying results. -/
def evDone : ProgressEvent :=
  { completed := 2, total := 2, current_item := "",
    done := true, error := none,
    results := [sampleResult "C" "a.pdf" none, sampleResult "C" "b.pdf" none] }

/-- The Excel base name shared by every clause of `collidingClauses`:
the sheet name computed for a clause whose first line is `A` with clause
number 1. -/
def bnA : List Char := "Clause 1_ A".data

/-- The dedup loop's candidate names over the base `bnA`:
`` `Clause 1_ A_${j}` ``. -/
def nmA (j : Nat) : List Char := bnA ++ '_' :: natChars j

/-- A clause text whose computed sheet name is exactly the candidate
`nmA j`. -/
def ttA (j : Nat) : String := ("A_".data ++ natChars j).asString

/-- 102 results with pairwise-distinct clause texts that all map to the
Excel sheet name `Clause 1_ A` (same `_clause_idx`, same first line or a
first line that equals one of the dedup loop's candidate names), driving
the dedup loop past its 100-attempt safety break. -/
def collidingClauses : List AnalysisResult :=
  sampleResult "A\nz" "f.pdf" (some 0) ::
  ((List.range 100).map fun k => sampleResult (ttA (k + 1)) "f.pdf" (some 0))
  ++ [sampleResult "A\nz2" "f.pdf" (some 0)]

/-- The Excel base name shared by every clause of `collidingClauses101`:
exactly 25 characters, so the dedup loop's 25-character `baseName`
truncation leaves it unchanged. -/
def bnB : List Char := "Clause 1_ AAAAAAAAAAAAAAA".data

/-- The dedup loop's candidate names over the base `bnB`:
`` `Clause 1_ AAAAAAAAAAAAAAA_${j}` ``. -/
def nmB (j : Nat) : List Char := bnB ++ '_' :: natChars j

/-- A clause text whose computed sheet name is exactly the candidate
`nmB j`. -/
def ttB (j : Nat) : String := ("AAAAAAAAAAAAAAA_".data ++ natChars j).asString

/-- 101 results with pairwise-distinct clause texts: the first 100 map
directly to the sheet names `Clause 1_ AAAAAAAAAAAAAAA_1 … _100`, and the
last one's own 29-character name is again `…_100` (its first line repeats
the 100th clause's text; the two differ after a newline), so its dedup
loop finds every candidate taken and the safety break returns `…_100`
unchecked — a duplicate already at 101 distinct clauses. -/
def collidingClauses101 : List AnalysisResult :=
  ((List.range 100).map fun k => sampleResult (ttB (k + 1)) "f.pdf" (some 0))
  ++ [sampleResult "AAAAAAAAAAAAAAA_100\nX" "f.pdf" (some 0)]

/-! ## Theorems -/

/-- **C4, counterexample.**  The claim says `validatePassword` returns
`false` exactly when the response status is 401; but the code also returns
`false` for any other status outside {200, 400} — e.g. a 500 response —
so "false exactly when 401" is refuted at status 500. -/
theorem validatePassword_not_false_only_on_401 :
    validatePassword (.response 500) = false ∧ (500 : Nat) ≠ 401 :=
  ⟨rfl, by decide⟩

/-- **C4 (amended).**  `validatePassword` returns `true` exactly when the
status is 400 or 200 (so `false` for 401 and for every other status, and on
network error); `startAnalysis` throws the distinct `"AUTH_REQUIRED"` error
when the status is 401, while any other non-ok status surfaces the
response's detail message (or a generic message when the detail is blank). -/
theorem auth_signals_amended (status : Nat) (detail : String) :
    (validatePassword (.response status) = true ↔ (status = 400 ∨ status = 200))
    ∧ validatePassword .networkError = false
    ∧ (status = 401 → startAnalysis status detail = .error "AUTH_REQUIRED")
    ∧ (status ≠ 401 → statusOk status = false →
        startAnalysis status detail =
          .error (if detail = "" then "Request failed: " ++ toString status
                  else detail))
    ∧ (status ≠ 401 → statusOk status = true →
        startAnalysis status detail = .ok ()) := by
  refine ⟨?_, rfl, ?_, ?_, ?_⟩
  · by_cases h : status = 401
    · subst h; simp [validatePassword]
    · simp [validatePassword, h]
  · intro h; simp [startAnalysis, h]
  · intro h hok; simp [startAnalysis, h, hok]
  · intro h hok; simp [startAnalysis, h, hok]

/-- Witness for C4 (amended) at concrete statuses 401 and 404. -/
theorem auth_signals_amended_witness :
    startAnalysis 401 "x" = .error "AUTH_REQUIRED"
    ∧ startAnalysis 404 "missing" = .error "missing" :=
  ⟨(auth_signals_amended 401 "x").2.2.1 rfl,
   (auth_signals_amended 404 "missing").2.2.2.1 (by decide) (by decide)⟩

/-- **C5.**  A submission whose clause strings all trim to empty, or whose
uploaded-file list and derived link list are both empty, is rejected
synchronously by `handleAnalyze` with a validation toast; the outcome is a
`validationError`, not a `run`, so `analysis.run` is never invoked and no
job id is requested. -/
theorem handleAnalyze_rejects_invalid (clauses files : List String)
    (htmlLinks : String) :
    ((∀ c ∈ clauses, trimChars c.data = []) →
        handleAnalyze clauses files htmlLinks =
          .validationError "Enter at least one clause.")
    ∧ (files = [] → deriveLinkList htmlLinks = [] →
        ∃ msg, handleAnalyze clauses files htmlLinks = .validationError msg) := by
  constructor
  · intro h
    have hf : clauses.filter (fun c => !decide (trimChars c.data = [])) = [] := by
      rw [List.filter_eq_nil_iff]
      intro a ha
      simp [h a ha]
    simp [handleAnalyze, hf]
  · intro hfiles hlinks
    by_cases h0 :
        (clauses.filter (fun c => trimChars c.data ≠ [])).length = 0
    · refine ⟨"Enter at least one clause.", ?_⟩
      simp only [handleAnalyze]
      rw [if_pos h0]
    · refine ⟨"Upload at least one PDF or provide an HTML link.", ?_⟩
      simp only [handleAnalyze]
      rw [if_neg h0, if_pos ⟨by simp [hfiles], by simp [hlinks]⟩]

/-- Witness for C5: the all-blank clause list `["", "  "]` and the
empty-source submission `(["x"], no files, no links)` are both rejected. -/
theorem handleAnalyze_rejects_invalid_witness :
    handleAnalyze ["", "  "] ["f.pdf"] "" =
      .validationError "Enter at least one clause."
    ∧ ∃ msg, handleAnalyze ["x"] [] "" = .validationError msg :=
  ⟨(handleAnalyze_rejects_invalid ["", "  "] ["f.pdf"] "").1 (by decide),
   (handleAnalyze_rejects_invalid ["x"] [] "").2 rfl (by decide)⟩

/-- Helper: folding events that are all non-terminal through the
`useAnalysis` reducer leaves the stored results untouched. -/
theorem foldl_applyProgress_results_const (pre : List ProgressEvent) :
    ∀ st : AnalysisState, (∀ ev ∈ pre, ev.done = false) →
      (pre.foldl applyProgress st).results = st.results := by
  induction pre with
  | nil => intro st _; rfl
  | cons e rest ih =>
      intro st h
      have he : e.done = false := h e (List.mem_cons_self e rest)
      have hrest : ∀ ev ∈ rest, ev.done = false :=
        fun ev hev => h ev (List.mem_cons_of_mem e hev)
      rw [List.foldl_cons, ih (applyProgress st e) hrest]
      simp [applyProgress, he]

/-- **C2.**  Through the `useAnalysis` subscriber's state updater: events
with `done = false` never change the stored results, the stored results
stay empty while only non-terminal events have been delivered, and at the
terminal event the stored results become exactly that event's results. -/
theorem useAnalysis_results_set_only_at_done (pre : List ProgressEvent)
    (e : ProgressEvent) (s : AnalysisState)
    (hpre : ∀ ev ∈ pre, ev.done = false) :
    (e.done = false → (applyProgress s e).results = s.results)
    ∧ (pre.foldl applyProgress runInitState).results = []
    ∧ (e.done = true →
        ((pre ++ [e]).foldl applyProgress runInitState).results = e.results) := by
  refine ⟨fun he => by simp [applyProgress, he], ?_, ?_⟩
  · rw [foldl_applyProgress_results_const pre runInitState hpre]; rfl
  · intro he
    rw [List.foldl_append, List.foldl_cons, List.foldl_nil]
    simp [applyProgress, he]

/-- Witness for C2 at a concrete non-terminal prefix and terminal event. -/
theorem useAnalysis_results_set_only_at_done_witness :
    (evDone.done = false →
        (applyProgress runInitState evDone).results = runInitState.results)
    ∧ ([evMid].foldl applyProgress runInitState).results = []
    ∧ (evDone.done = true →
        (([evMid] ++ [evDone]).foldl applyProgress runInitState).results =
          evDone.results) :=
  useAnalysis_results_set_only_at_done [evMid] evDone runInitState (by decide)

/-- Helper: a closed `EventSource` delivers nothing further. -/
theorem foldl_subscribeStep_closed (evs : List ProgressEvent) :
    ∀ st : SubscriberState, st.closed = true →
      evs.foldl subscribeStep st = st := by
  induction evs with
  | nil => intro st _; rfl
  | cons e rest ih =>
      intro st h
      rw [List.foldl_cons]
      have : subscribeStep st e = st := by simp [subscribeStep, h]
      rw [this, ih st h]

/-- Helper: while only non-terminal events arrive, the subscription stays
open and delivers each of them. -/
theorem foldl_subscribeStep_open (pre : List ProgressEvent) :
    ∀ st : SubscriberState, st.closed = false →
      (∀ ev ∈ pre, ev.done = false) →
      pre.foldl subscribeStep st =
        { closed := false, delivered := st.delivered ++ pre } := by
  induction pre with
  | nil => intro st h _; simp [← h]
  | cons e rest ih =>
      intro st h hpre
      have he : e.done = false := hpre e (List.mem_cons_self e rest)
      rw [List.foldl_cons]
      have hstep : subscribeStep st e =
          { closed := false, delivered := st.delivered ++ [e] } := by
        simp [subscribeStep, h, he]
      rw [hstep, ih _ rfl (fun ev hev => hpre ev (List.mem_cons_of_mem e hev))]
      simp

/-- **C3.**  After the terminal (`done = true`) event is delivered,
`subscribeProgress` has closed the `EventSource`, and no event arriving
after the terminal one is ever delivered to the subscriber: the delivered
sequence is exactly the non-terminal prefix followed by the terminal
event. -/
theorem subscribeProgress_closes_after_done (pre post : List ProgressEvent)
    (d : ProgressEvent) (hpre : ∀ ev ∈ pre, ev.done = false)
    (hd : d.done = true) :
    (subscribeRun (pre ++ d :: post)).closed = true
    ∧ (subscribeRun (pre ++ d :: post)).delivered = pre ++ [d] := by
  have h1 : subscribeRun (pre ++ d :: post) =
      post.foldl subscribeStep
        (subscribeStep { closed := false, delivered := pre } d) := by
    unfold subscribeRun
    rw [List.foldl_append, List.foldl_cons,
        foldl_subscribeStep_open pre initSubscriber rfl hpre]
    rfl
  have h2 : subscribeStep { closed := false, delivered := pre } d =
      { closed := true, delivered := pre ++ [d] } := by
    simp [subscribeStep, hd]
  rw [h1, h2, foldl_subscribeStep_closed post _ rfl]
  exact ⟨rfl, rfl⟩

/-- Witness for C3: with one non-terminal event, then the terminal event,
then two post-termination events, only the first two are delivered. -/
theorem subscribeProgress_closes_after_done_witness :
    (subscribeRun ([evMid] ++ evDone :: [evMid, evDone])).closed = true
    ∧ (subscribeRun ([evMid] ++ evDone :: [evMid, evDone])).delivered =
        [evMid] ++ [evDone] :=
  subscribeProgress_closes_after_done [evMid] [evMid, evDone] evDone
    (by decide) (by decide)

/-- Every classification value renders as a non-empty string. -/
theorem Classification.label_ne_empty (c : Classification) : c.label ≠ "" := by
  cases c <;> decide

/-- Helper: the length of a C×S grid built by nested range iteration. -/
theorem flatMap_range_map_length {α : Type} (S : Nat) (f : Nat → Nat → α) :
    ∀ C : Nat,
      ((List.range C).flatMap fun i => (List.range S).map (f i)).length = C * S := by
  intro C
  induction C with
  | zero => simp
  | succ C ih =>
      rw [List.range_succ, List.flatMap_append]
      simp [ih, Nat.succ_mul]

/-- Helper: the (i, j) cell of a C×S grid sits at flat index `i * S + j`. -/
theorem flatMap_range_map_getElem {α : Type} (S : Nat) (f : Nat → Nat → α) :
    ∀ C i j : Nat, i < C → j < S →
      ((List.range C).flatMap fun i => (List.range S).map (f i))[i * S + j]? =
        some (f i j) := by
  intro C
  induction C with
  | zero => intro i j hi _; exact absurd hi (Nat.not_lt_zero i)
  | succ C ih =>
      intro i j hi hj
      rw [List.range_succ, List.flatMap_append]
      by_cases hic : i < C
      · rw [List.getElem?_append_left]
        · exact ih i j hic hj
        · rw [flatMap_range_map_length]
          have h1 : (i + 1) * S ≤ C * S :=
            Nat.mul_le_mul_right S hic
          have h2 : (i + 1) * S = i * S + S := Nat.succ_mul i S
          omega
      · have hiC : i = C := by omega
        subst hiC
        rw [List.getElem?_append_right]
        · rw [flatMap_range_map_length]
          simp [hj]
        · rw [flatMap_range_map_length]
          omega

/-- **C1** (spec-modelled: the backend orchestrator is not under `src/`).
For every submission that passes validation, the terminal progress event is
marked done and carries exactly C×S results — one per (clause, source)
pair, at flat index `i·S + j` — and every entry's classification renders
as a non-empty string. -/
theorem jobResults_grid_complete (clauses sources : List String)
    (outcome : Nat → Nat → TaskOutcome) (rs : List AnalysisResult)
    (hok : submitJob clauses sources outcome = .ok rs) :
    (terminalEvent clauses sources outcome).done = true
    ∧ (terminalEvent clauses sources outcome).results = rs
    ∧ rs.length = clauses.length * sources.length
    ∧ (∀ r ∈ rs, r.classification.label ≠ "")
    ∧ (∀ i j, i < clauses.length → j < sources.length →
        rs[i * sources.length + j]? =
          some (taskResult (clauses.getD i "") (sources.getD j "")
            (outcome i j))) := by
  have hrs : rs = jobResults clauses sources outcome := by
    simp only [submitJob] at hok
    split_ifs at hok
    all_goals simp_all
  subst hrs
  refine ⟨rfl, rfl, flatMap_range_map_length _ _ _, ?_, ?_⟩
  · intro r _
    exact Classification.label_ne_empty r.classification
  · intro i j hi hj
    exact flatMap_range_map_getElem sources.length _ clauses.length i j hi hj

/-- Witness for C1: a 2-clause × 1-source submission where every task
fails; the terminal results still form the full 2×1 grid. -/
theorem jobResults_grid_complete_witness :
    (jobResults ["c1", "c2"] ["s1"] (fun _ _ => .failure "boom")).length = 2 * 1
    ∧ (jobResults ["c1", "c2"] ["s1"] (fun _ _ => .failure "boom"))[1 * 1 + 0]? =
        some (taskResult "c2" "s1" (.failure "boom")) :=
  have h := jobResults_grid_complete ["c1", "c2"] ["s1"]
    (fun _ _ => .failure "boom") _ rfl
  ⟨h.2.2.1, h.2.2.2.2 1 0 (by decide) (by decide)⟩

/-- Helper: membership in the first-appearance key list, with a general
accumulator. -/
theorem mem_clauseOrderOf_foldl (xs : List AnalysisResult) :
    ∀ (acc : List String) (k : String),
      (k ∈ xs.foldl (fun ks r => if ks.contains r.apple_clause then ks
                                 else ks ++ [r.apple_clause]) acc)
        ↔ (k ∈ acc ∨ ∃ r ∈ xs, r.apple_clause = k) := by
  induction xs with
  | nil => intro acc k; simp
  | cons r rest ih =>
      intro acc k
      rw [List.foldl_cons]
      by_cases hc : acc.contains r.apple_clause = true
      · have hmem : r.apple_clause ∈ acc := by simpa using hc
        rw [if_pos hc, ih]
        constructor
        · rintro (h | ⟨a, ha, hk⟩)
          · exact Or.inl h
          · exact Or.inr ⟨a, List.mem_cons_of_mem r ha, hk⟩
        · rintro (h | ⟨a, ha, hk⟩)
          · exact Or.inl h
          · rcases List.mem_cons.mp ha with rfl | ha2
            · exact Or.inl (hk ▸ hmem)
            · exact Or.inr ⟨a, ha2, hk⟩
      · rw [if_neg hc, ih]
        constructor
        · rintro (h | ⟨a, ha, hk⟩)
          · rcases List.mem_append.mp h with h2 | h2
            · exact Or.inl h2
            · exact Or.inr ⟨r, List.mem_cons_self r rest,
                (List.mem_singleton.mp h2).symm⟩
          · exact Or.inr ⟨a, List.mem_cons_of_mem r ha, hk⟩
        · rintro (h | ⟨a, ha, hk⟩)
          · exact Or.inl (List.mem_append.mpr (Or.inl h))
          · rcases List.mem_cons.mp ha with rfl | ha2
            · exact Or.inl (List.mem_append.mpr
                (Or.inr (List.mem_singleton.mpr hk.symm)))
            · exact Or.inr ⟨a, ha2, hk⟩

/-- Helper: a clause text is a key iff some result carries it. -/
theorem mem_clauseOrderOf (rs : List AnalysisResult) (k : String) :
    k ∈ clauseOrderOf rs ↔ ∃ r ∈ rs, r.apple_clause = k := by
  rw [clauseOrderOf, mem_clauseOrderOf_foldl]
  simp

/-- Helper: one push step preserves the closed form of the grouping record:
keys in first-appearance order, each carrying the sublist of results whose
`apple_clause` equals the key. -/
theorem pushToGroup_closed_form (xs : List AnalysisResult) (r : AnalysisResult) :
    pushToGroup
        ((clauseOrderOf xs).map
          (fun k => (k, xs.filter (fun r2 => r2.apple_clause == k)))) r
      = (clauseOrderOf (xs ++ [r])).map
          (fun k => (k, (xs ++ [r]).filter (fun r2 => r2.apple_clause == k))) := by
  have horder : clauseOrderOf (xs ++ [r]) =
      if (clauseOrderOf xs).contains r.apple_clause then clauseOrderOf xs
      else clauseOrderOf xs ++ [r.apple_clause] := by
    unfold clauseOrderOf
    rw [List.foldl_append]
    rfl
  by_cases hmem : r.apple_clause ∈ clauseOrderOf xs
  · have hcontains : (clauseOrderOf xs).contains r.apple_clause = true := by
      simpa using hmem
    have hany : (((clauseOrderOf xs).map
          (fun k => (k, xs.filter (fun r2 => r2.apple_clause == k)))).any
            (fun p => p.1 == r.apple_clause)) = true := by
      simp only [List.any_eq_true]
      exact ⟨(r.apple_clause, xs.filter
          (fun r2 => r2.apple_clause == r.apple_clause)),
        List.mem_map.mpr ⟨r.apple_clause, hmem, rfl⟩, by simp⟩
    rw [horder, if_pos hcontains]
    unfold pushToGroup
    rw [if_pos hany, List.map_map]
    apply List.map_congr_left
    intro k _
    by_cases hk : k = r.apple_clause
    · subst hk
      simp [List.filter_append]
    · have hne : (k == r.apple_clause) = false :=
        beq_eq_false_iff_ne.mpr hk
      have hne2 : (r.apple_clause == k) = false :=
        beq_eq_false_iff_ne.mpr (Ne.symm hk)
      simp [hne, hne2, List.filter_append, hk]
  · have hcontains : ¬ ((clauseOrderOf xs).contains r.apple_clause = true) := by
      simpa using hmem
    have hany : ¬ ((((clauseOrderOf xs).map
          (fun k => (k, xs.filter (fun r2 => r2.apple_clause == k)))).any
            (fun p => p.1 == r.apple_clause)) = true) := by
      simp only [List.any_eq_true, not_exists]
      rintro p ⟨hp, hpk⟩
      rcases List.mem_map.mp hp with ⟨k, hkmem, rfl⟩
      have hkr : k = r.apple_clause := by simpa using hpk
      exact hmem (hkr ▸ hkmem)
    rw [horder, if_neg hcontains]
    unfold pushToGroup
    rw [if_neg hany, List.map_append]
    have hfe : xs.filter (fun r2 => r2.apple_clause == r.apple_clause) = [] := by
      rw [List.filter_eq_nil_iff]
      intro a ha hb
      exact hmem ((mem_clauseOrderOf xs r.apple_clause).mpr
        ⟨a, ha, by simpa using hb⟩)
    congr 1
    · apply List.map_congr_left
      intro k hk
      have hkne : k ≠ r.apple_clause := fun h => hmem (h ▸ hk)
      have hne2 : (r.apple_clause == k) = false :=
        beq_eq_false_iff_ne.mpr (Ne.symm hkne)
      simp [List.filter_append, hne2]
    · simp [List.filter_append, hfe]

/-- Helper: the grouping record in closed form. -/
theorem clauseGroups_closed_form (rs : List AnalysisResult) :
    clauseGroups rs = (clauseOrderOf rs).map
      (fun k => (k, rs.filter (fun r2 => r2.apple_clause == k))) := by
  have aux : ∀ (rest xs : List AnalysisResult),
      rest.foldl pushToGroup
          ((clauseOrderOf xs).map
            (fun k => (k, xs.filter (fun r2 => r2.apple_clause == k))))
        = (clauseOrderOf (xs ++ rest)).map
            (fun k => (k, (xs ++ rest).filter
              (fun r2 => r2.apple_clause == k))) := by
    intro rest
    induction rest with
    | nil => intro xs; simp
    | cons r rest2 ih =>
        intro xs
        rw [List.foldl_cons, pushToGroup_closed_form, ih]
        simp
  have h := aux rs []
  simpa [clauseGroups] using h

/-- **C7.**  Downstream grouping partitions results by exact string
equality of `apple_clause`: two results land in a common clause group
(in the results page's `clauseGroups` and in the Excel export's grouping,
both embedded as `clauseGroups`) iff their `apple_clause` strings are
equal. -/
theorem grouping_by_exact_clause_text (rs : List AnalysisResult)
    (r1 r2 : AnalysisResult) (h1 : r1 ∈ rs) (h2 : r2 ∈ rs) :
    (∃ k g, (k, g) ∈ clauseGroups rs ∧ r1 ∈ g ∧ r2 ∈ g)
      ↔ r1.apple_clause = r2.apple_clause := by
  rw [clauseGroups_closed_form]
  constructor
  · rintro ⟨k, g, hkg, hr1, hr2⟩
    rcases List.mem_map.mp hkg with ⟨k2, hk2mem, hk2⟩
    injection hk2 with hka hkb
    subst hka
    subst hkb
    have e1 : r1.apple_clause = k2 := by
      simpa using (List.mem_filter.mp hr1).2
    have e2 : r2.apple_clause = k2 := by
      simpa using (List.mem_filter.mp hr2).2
    rw [e1, e2]
  · intro heq
    refine ⟨r1.apple_clause,
      rs.filter (fun r2 => r2.apple_clause == r1.apple_clause), ?_, ?_, ?_⟩
    · exact List.mem_map.mpr
        ⟨r1.apple_clause,
         (mem_clauseOrderOf rs r1.apple_clause).mpr ⟨r1, h1, rfl⟩, rfl⟩
    · exact List.mem_filter.mpr ⟨h1, by simp⟩
    · exact List.mem_filter.mpr ⟨h2, by simp [heq]⟩

/-- Witness for C7: two results with the same clause text share a group and
one with different text does not pair with them. -/
theorem grouping_by_exact_clause_text_witness :
    (∃ k g,
        (k, g) ∈ clauseGroups
          [sampleResult "C" "a.pdf" none, sampleResult "C" "b.pdf" none,
           sampleResult "D" "a.pdf" none]
        ∧ sampleResult "C" "a.pdf" none ∈ g ∧ sampleResult "C" "b.pdf" none ∈ g)
    ∧ ¬ (∃ k g,
        (k, g) ∈ clauseGroups
          [sampleResult "C" "a.pdf" none, sampleResult "C" "b.pdf" none,
           sampleResult "D" "a.pdf" none]
        ∧ sampleResult "C" "a.pdf" none ∈ g ∧ sampleResult "D" "a.pdf" none ∈ g) :=
  ⟨(grouping_by_exact_clause_text _ _ _ (by decide) (by decide)).mpr rfl,
   fun h => absurd
     ((grouping_by_exact_clause_text _ _ _ (by decide) (by decide)).mp h)
     (by decide)⟩

/-- **C6, counterexample.**  The claim says all export functions order
clause groups by the original clause index (`_clause_idx` when present).
The CSV export ignores `_clause_idx` entirely and always uses first
appearance: with results `[B (idx 1), A (idx 0)]` the claimed order is
`["A", "B"]` but the CSV export presents `["B", "A"]`. -/
theorem csv_order_ignores_clause_idx :
    clauseOrderOf
        [sampleResult "B" "f.pdf" (some 1), sampleResult "A" "f.pdf" (some 0)]
      = ["B", "A"]
    ∧ claimedExportOrder
        [sampleResult "B" "f.pdf" (some 1), sampleResult "A" "f.pdf" (some 0)]
      = ["A", "B"]
    ∧ clauseOrderOf
        [sampleResult "B" "f.pdf" (some 1), sampleResult "A" "f.pdf" (some 0)]
      ≠ claimedExportOrder
        [sampleResult "B" "f.pdf" (some 1), sampleResult "A" "f.pdf" (some 0)] :=
  ⟨by decide, by decide, by decide⟩

/-- Helper: the first-appearance key list never repeats a key. -/
theorem clauseOrderOf_nodup (rs : List AnalysisResult) :
    (clauseOrderOf rs).Nodup := by
  have aux : ∀ (xs : List AnalysisResult) (acc : List String), acc.Nodup →
      (xs.foldl (fun ks r => if ks.contains r.apple_clause then ks
                             else ks ++ [r.apple_clause]) acc).Nodup := by
    intro xs
    induction xs with
    | nil => intro acc h; exact h
    | cons r rest ih =>
        intro acc h
        rw [List.foldl_cons]
        by_cases hc : acc.contains r.apple_clause = true
        · rw [if_pos hc]; exact ih acc h
        · rw [if_neg hc]
          apply ih
          have hnm : r.apple_clause ∉ acc := by simpa using hc
          simp [List.nodup_append, h, hnm]
  exact aux rs [] List.nodup_nil

/-- **C6 (amended).**  The PDF and Excel exports order clause groups by the
original clause index — `_clause_idx` when present, first appearance
otherwise — exactly as the spec's ordering rule prescribes: their
`sortedClauses` list is sorted by the effective index and is a permutation
of the (duplicate-free) first-appearance key list.  The CSV export, by
contrast, always presents groups in first-appearance order
(`clauseOrderOf`), ignoring `_clause_idx`. -/
theorem export_clause_order_amended (rs : List AnalysisResult) :
    List.Sorted (fun a b => effectiveIdx rs a ≤ effectiveIdx rs b)
      (sortedClauses rs)
    ∧ (sortedClauses rs).Perm (clauseOrderOf rs)
    ∧ sortedClauses rs = claimedExportOrder rs
    ∧ (clauseOrderOf rs).Nodup := by
  refine ⟨?_, ?_, rfl, clauseOrderOf_nodup rs⟩
  · haveI : IsTotal String (fun a b => effectiveIdx rs a ≤ effectiveIdx rs b) :=
      ⟨fun a b => Nat.le_total _ _⟩
    haveI : IsTrans String (fun a b => effectiveIdx rs a ≤ effectiveIdx rs b) :=
      ⟨fun _ _ _ h1 h2 => Nat.le_trans h1 h2⟩
    exact List.sorted_insertionSort _ _
  · exact List.perm_insertionSort _ _

/-- Helper: `takeWhile` passes over a block of satisfying characters. -/
theorem takeWhile_append_all {p : Char → Bool} :
    ∀ (v l : List Char), (∀ c ∈ v, p c = true) →
      (v ++ l).takeWhile p = v ++ l.takeWhile p := by
  intro v
  induction v with
  | nil => intro l _; rfl
  | cons c v ih =>
      intro l h
      have hc : p c = true := h c (List.mem_cons_self c v)
      simp only [List.cons_append, List.takeWhile_cons, hc, if_pos]
      rw [ih l (fun x hx => h x (List.mem_cons_of_mem c hx))]

/-- Helper: `dropWhile` passes over a block of satisfying characters. -/
theorem dropWhile_append_all {p : Char → Bool} :
    ∀ (v l : List Char), (∀ c ∈ v, p c = true) →
      (v ++ l).dropWhile p = l.dropWhile p := by
  intro v
  induction v with
  | nil => intro l _; rfl
  | cons c v ih =>
      intro l h
      have hc : p c = true := h c (List.mem_cons_self c v)
      simp only [List.cons_append, List.dropWhile_cons, hc, if_pos]
      exact ih l (fun x hx => h x (List.mem_cons_of_mem c hx))

/-- Helper: an unquotable value contains neither comma nor quote. -/
theorem not_needsQuoting_mem {v : List Char} (h : needsQuoting v = false) :
    ∀ c ∈ v, c ≠ ',' ∧ c ≠ '"' := by
  intro c hc
  have h2 : ∀ x ∈ v, ((¬ x = ',' ∧ ¬ x = '"') ∧ ¬ x = '\n') ∧ ¬ x = '\x0d' := by
    simpa [needsQuoting] using h
  exact ⟨(h2 c hc).1.1.1, (h2 c hc).1.1.2⟩

/-- Reduction: a doubled quote inside a quoted field. -/
theorem parseQuoted_quote₂ (X acc : List Char) :
    parseQuoted ('"' :: '"' :: X) acc = parseQuoted X (acc ++ ['"']) := by
  rw [parseQuoted.eq_def]
  simp

/-- Reduction: an ordinary character inside a quoted field. -/
theorem parseQuoted_other (c : Char) (X acc : List Char) (hc : c ≠ '"') :
    parseQuoted (c :: X) acc = parseQuoted X (acc ++ [c]) := by
  rw [parseQuoted.eq_def]
  simp [hc]

/-- Reduction: a closing quote at end of row. -/
theorem parseQuoted_close_end (acc : List Char) :
    parseQuoted ['"'] acc = (acc, none) := by
  rw [parseQuoted.eq_def]
  simp

/-- Reduction: a closing quote followed by a comma. -/
theorem parseQuoted_close_comma (acc t : List Char) :
    parseQuoted ('"' :: ',' :: t) acc = (acc, some t) := by
  rw [parseQuoted.eq_def]
  simp

/-- Reduction: a field opening with a quote is read quoted. -/
theorem parseField_quote (X : List Char) :
    parseField ('"' :: X) = parseQuoted X [] := by
  rw [parseField.eq_def]
  simp

/-- Reduction: a field opening with any other character is read verbatim
up to the next comma. -/
theorem parseField_other (c : Char) (rest : List Char) (hc : c ≠ '"') :
    parseField (c :: rest) =
      ((c :: rest).takeWhile (fun x => x ≠ ','),
       match (c :: rest).dropWhile (fun x => x ≠ ',') with
       | [] => none
       | _ :: t => some t) := by
  rw [parseField.eq_def]
  simp [hc]

/-- Helper: the quoted-field reader skips the escaped body and hands the
accumulated text to the closing-quote handler. -/
theorem parseQuoted_escInner :
    ∀ (v tail acc : List Char),
      parseQuoted (escInner v ++ '"' :: tail) acc =
        parseQuoted ('"' :: tail) (acc ++ v) := by
  intro v
  induction v with
  | nil => intro tail acc; simp [escInner]
  | cons c v ih =>
      intro tail acc
      by_cases hc : c = '"'
      · subst hc
        have hshape : escInner ('"' :: v) ++ '"' :: tail =
            '"' :: '"' :: (escInner v ++ '"' :: tail) := by
          simp [escInner]
        rw [hshape, parseQuoted_quote₂, ih]
        simp
      · have hshape : escInner (c :: v) ++ '"' :: tail =
            c :: (escInner v ++ '"' :: tail) := by
          simp [escInner, hc]
        rw [hshape, parseQuoted_other c _ _ hc, ih]
        simp

/-- Helper: reading a whole escaped field gives back the value, with the
row ending at end-of-input. -/
theorem parseField_escField (v : List Char) :
    parseField (escField v) = (v, none) := by
  by_cases hq : needsQuoting v = true
  · have hshape : escField v = '"' :: (escInner v ++ '"' :: []) := by
      simp [escField, hq]
    rw [hshape, parseField_quote, parseQuoted_escInner v [] [],
        List.nil_append, parseQuoted_close_end]
  · have hq2 : needsQuoting v = false := by
      revert hq; cases needsQuoting v <;> simp
    have hv : escField v = v := by simp [escField, hq2]
    rw [hv]
    have hmem := not_needsQuoting_mem hq2
    cases v with
    | nil => rfl
    | cons c rest =>
        have hcq : c ≠ '"' := (hmem c (List.mem_cons_self c rest)).2
        have hall : ∀ x ∈ c :: rest, (fun x => decide (x ≠ ',')) x = true := by
          intro x hx
          simpa using (hmem x hx).1
        have ht : (c :: rest).takeWhile (fun x => decide (x ≠ ',')) =
            c :: rest := by
          have h0 := takeWhile_append_all (c :: rest) [] hall
          simpa using h0
        have hd : (c :: rest).dropWhile (fun x => decide (x ≠ ',')) = [] := by
          have h0 := dropWhile_append_all (c :: rest) [] hall
          simpa using h0
        rw [parseField_other c rest hcq, ht, hd]

/-- Helper: reading an escaped field followed by a comma gives back the
value and positions the reader after the comma. -/
theorem parseField_escField_comma (v rest : List Char) :
    parseField (escField v ++ ',' :: rest) = (v, some rest) := by
  by_cases hq : needsQuoting v = true
  · have hshape : escField v ++ ',' :: rest =
        '"' :: (escInner v ++ '"' :: ',' :: rest) := by
      simp [escField, hq]
    rw [hshape, parseField_quote, parseQuoted_escInner v (',' :: rest) [],
        List.nil_append, parseQuoted_close_comma]
  · have hq2 : needsQuoting v = false := by
      revert hq; cases needsQuoting v <;> simp
    have hv : escField v = v := by simp [escField, hq2]
    rw [hv]
    have hmem := not_needsQuoting_mem hq2
    have hall : ∀ x ∈ v, (fun x => decide (x ≠ ',')) x = true := by
      intro x hx
      simpa using (hmem x hx).1
    have ht : (v ++ ',' :: rest).takeWhile (fun x => decide (x ≠ ',')) = v := by
      rw [takeWhile_append_all v (',' :: rest) hall]
      simp [List.takeWhile_cons]
    have hd : (v ++ ',' :: rest).dropWhile (fun x => decide (x ≠ ',')) =
        ',' :: rest := by
      rw [dropWhile_append_all v (',' :: rest) hall]
      simp [List.dropWhile_cons]
    cases v with
    | nil =>
        rw [List.nil_append]
        simp [parseField]
    | cons c v2 =>
        have hcq : c ≠ '"' := (hmem c (List.mem_cons_self c v2)).2
        have hshape : (c :: v2) ++ ',' :: rest = c :: (v2 ++ ',' :: rest) := rfl
        rw [hshape, parseField_other c _ hcq, ← hshape, ht, hd]

/-- Helper: `esc` on two-or-more values splits at the first comma. -/
theorem escRow_cons₂ (v w : List Char) (t : List (List Char)) :
    escRow (v :: w :: t) = escField v ++ ',' :: escRow (w :: t) := by
  simp [escRow, List.intercalate]

/-- Helper: the fuelled row reader undoes `esc` on any nonempty value
list, given enough fuel. -/
theorem parseRowAux_escRow :
    ∀ (vs : List (List Char)) (fuel : Nat), vs ≠ [] → vs.length ≤ fuel →
      parseRowAux fuel (escRow vs) = vs := by
  intro vs
  induction vs with
  | nil => intro fuel h; exact absurd rfl h
  | cons v t ih =>
      intro fuel _ hlen
      obtain ⟨f, rfl⟩ : ∃ f, fuel = f + 1 := by
        cases fuel
        · simp at hlen
        · exact ⟨_, rfl⟩
      cases t with
      | nil =>
          have hesc : escRow [v] = escField v := by
            simp [escRow, List.intercalate]
          simp [parseRowAux, hesc, parseField_escField]
      | cons w t2 =>
          rw [escRow_cons₂]
          simp only [parseRowAux, parseField_escField_comma]
          rw [ih f (by simp) (by simpa using hlen)]

/-- **C8, counterexample.**  `esc` is not injective at the boundary: the
empty value list and the single-empty-value list both produce the empty
row, and parsing the empty row yields one empty field, so the round trip
fails for the empty list. -/
theorem csv_roundtrip_fails_on_empty_list :
    escRow [] = [] ∧ escRow [[]] = []
    ∧ parseCSVRow (escRow []) = [[]]
    ∧ ([[]] : List (List Char)) ≠ [] :=
  ⟨rfl, rfl, rfl, by decide⟩

/-- **C8 (amended).**  For every nonempty list of values, the row produced
by `esc`, parsed back under the CSV reading rules (a field containing a
comma, quote, CR or LF is emitted quoted with internal quotes doubled; any
other field verbatim), yields exactly the original values in order. -/
theorem csv_roundtrip_nonempty (vs : List (List Char)) (h : vs ≠ []) :
    parseCSVRow (escRow vs) = vs := by
  unfold parseCSVRow
  apply parseRowAux_escRow vs _ h
  have hlen : vs.length ≤ (escRow vs).length + 1 := by
    induction vs with
    | nil => simp
    | cons v t iht =>
        cases t with
        | nil => simp
        | cons w t2 =>
            rw [escRow_cons₂]
            have h0 := iht (by simp)
            simp only [List.length_cons, List.length_append] at *
            omega
  exact hlen

/-- Witness for C8 (amended) on a concrete three-field row exercising both
the quoted and the verbatim paths. -/
theorem csv_roundtrip_nonempty_witness :
    parseCSVRow (escRow ["a,b".data, "say \"hi\"".data, "plain".data]) =
      ["a,b".data, "say \"hi\"".data, "plain".data] :=
  csv_roundtrip_nonempty ["a,b".data, "say \"hi\"".data, "plain".data]
    (by decide)

/-- **C9, counterexample.**  The claim says every parsed clause has a
non-empty body.  On the input `Section 1: "` — a section reference whose
raw text is a single double quote — the flush guard sees a nonblank body,
but stripping the surrounding quote leaves an empty body, so a
`ParsedClause` with `body = ""` is emitted. -/
theorem parseBulkClauses_empty_body :
    parseBulkClauses "Section 1: \"" =
      [{ title := [], sectionRef := "Section 1".data, body := [],
         fullText := "Section 1: \"\"".data }]
    ∧ (parseBulkClauses "Section 1: \"").map ParsedClause.body = [[]] :=
  ⟨by decide, by decide⟩

/-- Helper: the results list after a flush. -/
theorem flushSection_results (st : ParseState) :
    (flushSection st).results =
      if st.currentSectionRef ≠ [] ∧ trimChars st.currentBody ≠ [] then
        st.results ++ [flushedClause st]
      else st.results := by
  unfold flushSection
  by_cases hc : st.currentSectionRef ≠ [] ∧ trimChars st.currentBody ≠ []
  · rw [if_pos hc, if_pos hc]
  · rw [if_neg hc, if_neg hc]

/-- Helper: a flushed clause has a nonempty section reference (the flush
guard) and a `fullText` assembled from its own fields. -/
theorem flushedClause_shape (st : ParseState)
    (h : st.currentSectionRef ≠ []) :
    (flushedClause st).sectionRef ≠ []
    ∧ (flushedClause st).fullText =
        (if (flushedClause st).title = [] then []
         else (flushedClause st).title ++ [':', '\n'])
        ++ (flushedClause st).sectionRef ++ [':', ' ', '"']
        ++ (flushedClause st).body ++ ['"'] := by
  refine ⟨h, ?_⟩
  by_cases ht : st.currentTitle = []
  · simp [flushedClause, ht]
  · simp [flushedClause, ht]

/-- Helper: flushing preserves "every emitted clause is well-shaped". -/
theorem flushSection_good (st : ParseState)
    (h : ∀ q ∈ st.results, q.sectionRef ≠ []
      ∧ q.fullText = (if q.title = [] then [] else q.title ++ [':', '\n'])
          ++ q.sectionRef ++ [':', ' ', '"'] ++ q.body ++ ['"']) :
    ∀ q ∈ (flushSection st).results, q.sectionRef ≠ []
      ∧ q.fullText = (if q.title = [] then [] else q.title ++ [':', '\n'])
          ++ q.sectionRef ++ [':', ' ', '"'] ++ q.body ++ ['"'] := by
  intro q hq
  rw [flushSection_results] at hq
  by_cases hc : st.currentSectionRef ≠ [] ∧ trimChars st.currentBody ≠ []
  · rw [if_pos hc] at hq
    rcases List.mem_append.mp hq with hold | hnew
    · exact h q hold
    · have : q = flushedClause st := List.mem_singleton.mp hnew
      subst this
      exact flushedClause_shape st hc.1
  · rw [if_neg hc] at hq
    exact h q hq

/-- Helper: each line-loop step only adds well-shaped clauses. -/
theorem parseLine_good (st : ParseState) (line : List Char)
    (h : ∀ q ∈ st.results, q.sectionRef ≠ []
      ∧ q.fullText = (if q.title = [] then [] else q.title ++ [':', '\n'])
          ++ q.sectionRef ++ [':', ' ', '"'] ++ q.body ++ ['"']) :
    ∀ q ∈ (parseLine st line).results, q.sectionRef ≠ []
      ∧ q.fullText = (if q.title = [] then [] else q.title ++ [':', '\n'])
          ++ q.sectionRef ++ [':', ' ', '"'] ++ q.body ++ ['"'] := by
  have hcases : (parseLine st line).results = st.results
      ∨ (parseLine st line).results = (flushSection st).results := by
    unfold parseLine
    by_cases h0 : trimChars line = []
    · rw [if_pos h0]; exact Or.inl rfl
    · rw [if_neg h0]
      cases htm : titleMatch (trimChars line) with
      | some g1 => exact Or.inr rfl
      | none =>
          cases hsm : matchSectionRef (trimChars line) with
          | some pr => exact Or.inr rfl
          | none =>
              by_cases hin : st.inSection = true
              · rw [if_pos hin]; exact Or.inl rfl
              · rw [if_neg hin]; exact Or.inl rfl
  rcases hcases with he | he
  · rw [he]; exact h
  · rw [he]; exact flushSection_good st h

/-- **C9 (amended).**  Every `ParsedClause` returned by `parseBulkClauses`
has a non-empty `sectionRef`, and its `fullText` is the concatenation of
the title followed by `":\n"` when a title is present, then the
`sectionRef`, `": \""`, the body, and a closing quote.  The body is the
section text trimmed and stripped of surrounding straight or curly quotes
— it can be empty (the original claim's "non-empty body" fails, see the
counterexample). -/
theorem parseBulkClauses_shape_amended (text : String) (pc : ParsedClause)
    (hpc : pc ∈ parseBulkClauses text) :
    pc.sectionRef ≠ []
    ∧ pc.fullText =
        (if pc.title = [] then [] else pc.title ++ [':', '\n'])
        ++ pc.sectionRef ++ [':', ' ', '"'] ++ pc.body ++ ['"'] := by
  have hfold : ∀ (lines : List (List Char)) (st : ParseState),
      (∀ q ∈ st.results, q.sectionRef ≠ []
        ∧ q.fullText = (if q.title = [] then [] else q.title ++ [':', '\n'])
            ++ q.sectionRef ++ [':', ' ', '"'] ++ q.body ++ ['"']) →
      ∀ q ∈ (lines.foldl parseLine st).results, q.sectionRef ≠ []
        ∧ q.fullText = (if q.title = [] then [] else q.title ++ [':', '\n'])
            ++ q.sectionRef ++ [':', ' ', '"'] ++ q.body ++ ['"'] := by
    intro lines
    induction lines with
    | nil => intro st h; exact h
    | cons l rest ih =>
        intro st h
        rw [List.foldl_cons]
        exact ih (parseLine st l) (parseLine_good st l h)
  unfold parseBulkClauses at hpc
  exact flushSection_good _
    (hfold (text.data.splitOn '\n')
      { currentTitle := [], currentSectionRef := [], currentBody := [],
        inSection := false, results := [] } (by simp)) pc hpc

/-- Witness for C9 (amended) on a concrete one-section input. -/
theorem parseBulkClauses_shape_amended_witness :
    ({ title := [], sectionRef := "Section 2".data, body := "hi".data,
       fullText := "Section 2: \"hi\"".data } : ParsedClause).sectionRef ≠ []
    ∧ ({ title := [], sectionRef := "Section 2".data, body := "hi".data,
         fullText := "Section 2: \"hi\"".data } : ParsedClause).fullText =
        (if ({ title := [], sectionRef := "Section 2".data, body := "hi".data,
               fullText := "Section 2: \"hi\"".data } : ParsedClause).title = []
         then []
         else ({ title := [], sectionRef := "Section 2".data,
                 body := "hi".data,
                 fullText := "Section 2: \"hi\"".data } : ParsedClause).title
           ++ [':', '\n'])
        ++ "Section 2".data ++ [':', ' ', '"'] ++ "hi".data ++ ['"'] :=
  parseBulkClauses_shape_amended "Section 2: \"hi\""
    { title := [], sectionRef := "Section 2".data, body := "hi".data,
      fullText := "Section 2: \"hi\"".data } (by decide)

/-- Helper: trimming never lengthens a string. -/
theorem trimChars_length_le (l : List Char) :
    (trimChars l).length ≤ l.length := by
  unfold trimChars
  calc ((l.dropWhile isWS).reverse.dropWhile isWS).reverse.length
      = ((l.dropWhile isWS).reverse.dropWhile isWS).length := by
        rw [List.length_reverse]
    _ ≤ (l.dropWhile isWS).reverse.length :=
        (List.dropWhile_sublist _).length_le
    _ = (l.dropWhile isWS).length := by rw [List.length_reverse]
    _ ≤ l.length := (List.dropWhile_sublist _).length_le

/-- Helper: a string starting with a non-whitespace character does not
trim to empty. -/
theorem trimChars_cons_ne (c : Char) (t : List Char) (hc : isWS c = false) :
    trimChars (c :: t) ≠ [] := by
  unfold trimChars
  intro h
  have h1 : ((c :: t).dropWhile isWS).reverse.dropWhile isWS = [] := by
    simpa using congrArg List.reverse h
  have h2 : (c :: t).dropWhile isWS = c :: t := by
    simp [List.dropWhile_cons, hc]
  rw [h2] at h1
  have h3 : ∀ x ∈ (c :: t).reverse, isWS x = true :=
    List.dropWhile_eq_nil_iff.mp h1
  have := h3 c (by simp)
  rw [hc] at this
  exact Bool.false_ne_true this

/-- Helper: the raw sheet name always extends `` `Clause ` ``. -/
theorem sheetNameRaw_eq_append (clause : List Char) (cn : Nat) :
    ∃ t, sheetNameRaw clause cn = "Clause ".data ++ t := by
  unfold sheetNameRaw
  by_cases h1 : trimChars clause = [] ∨ trimChars clause = ['…']
  · rw [if_pos h1]
    exact ⟨natChars cn, rfl⟩
  · rw [if_neg h1]
    by_cases h2 :
        (if (trimChars
              (((if (trimChars clause).getLast? = some '…'
                 then (trimChars clause).dropLast
                 else trimChars clause).takeWhile (· ≠ '\n')).takeWhile
                  (· ≠ '\r'))).length > 20
         then (trimChars
              (((if (trimChars clause).getLast? = some '…'
                 then (trimChars clause).dropLast
                 else trimChars clause).takeWhile (· ≠ '\n')).takeWhile
                  (· ≠ '\r'))).take 20
         else trimChars
              (((if (trimChars clause).getLast? = some '…'
                 then (trimChars clause).dropLast
                 else trimChars clause).takeWhile (· ≠ '\n')).takeWhile
                  (· ≠ '\r'))).length > 0
    · rw [if_pos h2]
      exact ⟨_, List.append_assoc _ _ _⟩
    · rw [if_neg h2]
      exact ⟨natChars cn, rfl⟩

/-- Helper: replacing and truncating a name that starts with `C` keeps the
leading `C` and lands within 31 characters. -/
theorem sheetNameTrunc_cons (t : List Char) :
    ∃ u, sheetNameTrunc ('C' :: t) = 'C' :: u
      ∧ ('C' :: u).length ≤ 31 := by
  have hrep : sheetNameReplaced ('C' :: t) = 'C' :: sheetNameReplaced t := by
    simp [sheetNameReplaced, sheetBadChar]
  unfold sheetNameTrunc
  rw [hrep]
  by_cases hlen : ('C' :: sheetNameReplaced t).length > 31
  · rw [if_pos hlen]
    refine ⟨(sheetNameReplaced t).take 30, rfl, ?_⟩
    have hle := List.length_take_le 30 (sheetNameReplaced t)
    simp only [List.length_cons]
    omega
  · rw [if_neg hlen]
    refine ⟨sheetNameReplaced t, rfl, ?_⟩
    simp only [List.length_cons] at hlen ⊢
    omega

/-- Helper: finalizing a name that starts with `C` keeps it within
Excel's 31-character limit (the post-truncation blank fallback can never
fire, because the name starts with a non-blank character). -/
theorem sheetNameFinalize_length (name : List Char) (cn : Nat)
    (hC : ∃ t, name = 'C' :: t) :
    (sheetNameFinalize name cn).length ≤ 31 := by
  obtain ⟨t, rfl⟩ := hC
  obtain ⟨u, hu, hlen⟩ := sheetNameTrunc_cons t
  unfold sheetNameFinalize
  rw [hu, if_neg (trimChars_cons_ne 'C' u (by decide))]
  exact hlen

/-- Helper: every generated sheet name fits in 31 characters. -/
theorem sheetNameFor_length (clause : List Char) (cn : Nat) :
    (sheetNameFor clause cn).length ≤ 31 := by
  obtain ⟨t, ht⟩ := sheetNameRaw_eq_append clause cn
  exact sheetNameFinalize_length _ cn ⟨"lause ".data ++ t, by rw [ht]; rfl⟩

set_option maxRecDepth 100000 in
/-- Helper: injectivity of the decimal rendering on the dedup counters. -/
theorem natChars_inj100 :
    ∀ j k : Fin 100, natChars (j.1 + 1) = natChars (k.1 + 1) → j = k := by
  decide

set_option maxRecDepth 100000 in
/-- Helper: the dedup counters render in at most three characters. -/
theorem natChars_len100 : ∀ k : Fin 100, (natChars (k.1 + 1)).length ≤ 3 := by
  decide

/-- Helper: the dedup loop returns its current candidate unchanged when it
is not taken. -/
theorem pickLoopAux_notin (bn : List Char) (taken : List (List Char))
    (fuel counter : Nat) (cur : List Char) (h : cur ∉ taken) :
    pickLoopAux bn taken fuel counter cur = cur := by
  cases fuel with
  | zero => rfl
  | succ f => simp [pickLoopAux, h]

/-- Helper: the dedup loop returns either its current candidate or a
`_k`-suffixed name with `k ≤ 100`. -/
theorem pickLoopAux_shape (bn : List Char) (taken : List (List Char)) :
    ∀ (fuel counter : Nat) (cur : List Char), counter ≤ 100 →
      pickLoopAux bn taken fuel counter cur = cur
      ∨ ∃ k, counter ≤ k ∧ k ≤ 100 ∧
          pickLoopAux bn taken fuel counter cur = bn ++ '_' :: natChars k := by
  intro fuel
  induction fuel with
  | zero => intro counter cur _; exact Or.inl rfl
  | succ f ih =>
      intro counter cur hcnt
      by_cases h : cur ∈ taken
      · have hred : pickLoopAux bn taken (f + 1) counter cur =
            if counter + 1 > 100 then bn ++ '_' :: natChars counter
            else pickLoopAux bn taken f (counter + 1)
              (bn ++ '_' :: natChars counter) := by
          simp [pickLoopAux, h]
        by_cases h100 : counter + 1 > 100
        · rw [hred, if_pos h100]
          exact Or.inr ⟨counter, Nat.le_refl _, hcnt, rfl⟩
        · rw [hred, if_neg h100]
          rcases ih (counter + 1) (bn ++ '_' :: natChars counter)
              (by omega) with he | ⟨k, hk1, hk2, he⟩
          · exact Or.inr ⟨counter, Nat.le_refl _, hcnt, he⟩
          · exact Or.inr ⟨k, by omega, hk2, he⟩
      · exact Or.inl (pickLoopAux_notin _ _ _ _ _ h)

/-- Helper: while a free `_k` candidate with `k ≤ 99` remains ahead of the
counter, the dedup loop lands on a name that is not yet taken. -/
theorem pickLoopAux_avoids (bn : List Char) (taken : List (List Char)) :
    ∀ (fuel counter : Nat) (cur : List Char),
      101 ≤ counter + fuel →
      (∃ k, counter ≤ k ∧ k ≤ 99 ∧ (bn ++ '_' :: natChars k) ∉ taken) →
      pickLoopAux bn taken fuel counter cur ∉ taken := by
  intro fuel
  induction fuel with
  | zero =>
      intro counter cur hf hex
      obtain ⟨k, hk1, hk2, _⟩ := hex
      omega
  | succ f ih =>
      intro counter cur hf hex
      obtain ⟨k, hk1, hk2, hknot⟩ := hex
      by_cases h : cur ∈ taken
      · have h100 : ¬ (counter + 1 > 100) := by omega
        have hred : pickLoopAux bn taken (f + 1) counter cur =
            pickLoopAux bn taken f (counter + 1)
              (bn ++ '_' :: natChars counter) := by
          simp [pickLoopAux, h, h100]
        rw [hred]
        by_cases hc : (bn ++ '_' :: natChars counter) ∈ taken
        · have hkc : k ≠ counter := fun e => hknot (e ▸ hc)
          exact ih (counter + 1) _ (by omega) ⟨k, by omega, hk2, hknot⟩
        · rw [pickLoopAux_notin _ _ _ _ _ hc]
          exact hc
      · rw [pickLoopAux_notin _ _ _ _ _ h]
        exact h

/-- Helper (pigeonhole): with at most 98 names taken, one of the 99
pairwise-distinct candidates `bn_1 … bn_99` is free. -/
theorem exists_free_candidate (bn : List Char) (taken : List (List Char))
    (hlen : taken.length ≤ 98) :
    ∃ k, 1 ≤ k ∧ k ≤ 99 ∧ (bn ++ '_' :: natChars k) ∉ taken := by
  by_contra hcon
  push_neg at hcon
  have hnodup : ((List.range 99).map
      (fun i => bn ++ '_' :: natChars (i + 1))).Nodup := by
    refine List.Nodup.map_on ?_ (List.nodup_range 99)
    intro x hx y hy he
    have hx99 : x < 99 := List.mem_range.mp hx
    have hy99 : y < 99 := List.mem_range.mp hy
    have htail : natChars (x + 1) = natChars (y + 1) := by
      have h1 := List.append_cancel_left he
      exact (List.cons.injEq .. ▸ h1).2
    have hfin := natChars_inj100 ⟨x, by omega⟩ ⟨y, by omega⟩ htail
    simpa using hfin
  have hsub : ((List.range 99).map (fun i => bn ++ '_' :: natChars (i + 1)))
      ⊆ taken := by
    intro x hx
    rcases List.mem_map.mp hx with ⟨i, hi, rfl⟩
    exact hcon (i + 1) (by omega)
      (by have := List.mem_range.mp hi; omega)
  have h1 : ((List.range 99).map
      (fun i => bn ++ '_' :: natChars (i + 1))).toFinset.card = 99 := by
    rw [List.toFinset_card_of_nodup hnodup]
    simp
  have h2 : ((List.range 99).map
        (fun i => bn ++ '_' :: natChars (i + 1))).toFinset.card
      ≤ taken.toFinset.card :=
    Finset.card_le_card (fun x hx =>
      List.mem_toFinset.mpr (hsub (List.mem_toFinset.mp hx)))
  have h3 : taken.toFinset.card ≤ taken.length := taken.toFinset_card_le
  omega

/-- Helper: with at most 98 names taken, the deduplicated name is fresh. -/
theorem finalSheetNameFor_notin (nm : List Char) (taken : List (List Char))
    (hlen : taken.length ≤ 98) :
    finalSheetNameFor nm taken ∉ taken := by
  unfold finalSheetNameFor
  obtain ⟨k, h1, h2, h3⟩ := exists_free_candidate
    (if nm.length > 25 then nm.take 25 else nm) taken hlen
  exact pickLoopAux_avoids _ taken 101 1 _ (by omega) ⟨k, h1, h2, h3⟩

/-- Helper: the deduplicated name also fits in 31 characters. -/
theorem finalSheetNameFor_length (nm : List Char) (taken : List (List Char))
    (hnm : nm.length ≤ 31) :
    (finalSheetNameFor nm taken).length ≤ 31 := by
  unfold finalSheetNameFor
  rcases pickLoopAux_shape (if nm.length > 25 then nm.take 25 else nm) taken
      101 1 (trimChars nm) (by omega) with he | ⟨k, hk1, hk2, he⟩
  · rw [he]
    exact le_trans (trimChars_length_le nm) hnm
  · rw [he]
    have hbn : (if nm.length > 25 then nm.take 25 else nm).length ≤ 25 := by
      by_cases h : nm.length > 25
      · simp [h]
      · rw [if_neg h]
        omega
    have hdig : (natChars k).length ≤ 3 := by
      have h0 := natChars_len100 ⟨k - 1, by omega⟩
      have hk : k - 1 + 1 = k := by omega
      rwa [hk] at h0
    simp only [List.length_append, List.length_cons]
    omega

/-- Helper: `dropWhile` keeps a list whose head fails the predicate. -/
theorem dropWhile_eq_self_head (p : Char → Bool) (l : List Char)
    (h : ∀ c, l.head? = some c → p c = false) : l.dropWhile p = l := by
  cases l with
  | nil => rfl
  | cons c t => simp [List.dropWhile_cons, h c rfl]

/-- Helper: trimming is the identity when both the first and the last
character are non-whitespace. -/
theorem trimChars_eq_self (l : List Char)
    (h1 : ∀ c, l.head? = some c → isWS c = false)
    (h2 : ∀ c, l.getLast? = some c → isWS c = false) :
    trimChars l = l := by
  unfold trimChars
  rw [dropWhile_eq_self_head isWS l h1,
      dropWhile_eq_self_head isWS l.reverse
        (fun c hc => h2 c (by rwa [List.head?_reverse] at hc)),
      List.reverse_reverse]

set_option maxRecDepth 100000 in
/-- Helper: the dedup counters render as nonempty strings of plain digit
characters — no whitespace, no newline or carriage return, no forbidden
sheet character and no ellipsis. -/
theorem natChars_good100 : ∀ j : Fin 100,
    natChars (j.1 + 1) ≠ [] ∧
    ∀ c ∈ natChars (j.1 + 1),
      isWS c = false ∧ sheetBadChar c = false ∧
      c ≠ '\n' ∧ c ≠ '\r' ∧ c ≠ '…' := by
  decide

/-- Helper: the digit facts transported from `Fin 100` to a plain counter
`1 ≤ j ≤ 100`. -/
theorem natChars_facts (j : Nat) (h1 : 1 ≤ j) (h2 : j ≤ 100) :
    natChars j ≠ [] ∧ (natChars j).length ≤ 3 ∧
    ∀ c ∈ natChars j,
      isWS c = false ∧ sheetBadChar c = false ∧
      c ≠ '\n' ∧ c ≠ '\r' ∧ c ≠ '…' := by
  have hg := natChars_good100 ⟨j - 1, by omega⟩
  have hl := natChars_len100 ⟨j - 1, by omega⟩
  have hj : j - 1 + 1 = j := by omega
  rw [hj] at hg hl
  exact ⟨hg.1, hl, hg.2⟩

/-- Helper: injectivity of the decimal rendering on counters `1 … 100`. -/
theorem natChars_inj_range (i j : Nat) (hi1 : 1 ≤ i) (hi2 : i ≤ 100)
    (hj1 : 1 ≤ j) (hj2 : j ≤ 100) (he : natChars i = natChars j) : i = j := by
  have hfin := natChars_inj100 ⟨i - 1, by omega⟩ ⟨j - 1, by omega⟩ (by
    have e1 : i - 1 + 1 = i := by omega
    have e2 : j - 1 + 1 = j := by omega
    rw [e1, e2]; exact he)
  have hv : i - 1 = j - 1 := congrArg Fin.val hfin
  omega

/-- Helper: distinct counters in `1 … 100` give distinct dedup candidate
names. -/
theorem nmA_inj (i j : Nat) (hi1 : 1 ≤ i) (hi2 : i ≤ 100)
    (hj1 : 1 ≤ j) (hj2 : j ≤ 100) (he : nmA i = nmA j) : i = j := by
  unfold nmA at he
  have h1 := List.append_cancel_left he
  injection h1 with hh ht
  exact natChars_inj_range i j hi1 hi2 hj1 hj2 ht

/-- Helper: the concrete length of the shared base name. -/
theorem bnA_length : bnA.length = 11 := by decide

/-- Helper: the base name differs from every dedup candidate name. -/
theorem bnA_ne_nmA (j : Nat) (h1 : 1 ≤ j) (h2 : j ≤ 100) : bnA ≠ nmA j := by
  intro he
  obtain ⟨hne, hl3, _⟩ := natChars_facts j h1 h2
  have hpos : 0 < (natChars j).length := List.length_pos.mpr hne
  have hlen := congrArg List.length he
  simp only [nmA, List.length_append, List.length_cons, bnA_length] at hlen
  omega

/-- Helper: candidate names are trim-stable. -/
theorem trimChars_nmA (j : Nat) (h1 : 1 ≤ j) (h2 : j ≤ 100) :
    trimChars (nmA j) = nmA j := by
  obtain ⟨hne, _, hgood⟩ := natChars_facts j h1 h2
  apply trimChars_eq_self
  · intro c hc
    have hh : (nmA j).head? = some 'C' := rfl
    rw [hh] at hc
    injection hc with hc2
    rw [← hc2]
    decide
  · intro c hc
    obtain ⟨e, d', hed⟩ : ∃ e d', natChars j = e :: d' := by
      cases hx : natChars j with
      | nil => exact absurd hx hne
      | cons e d' => exact ⟨e, d', rfl⟩
    rw [nmA, List.getLast?_append_cons, hed, List.getLast?_cons_cons] at hc
    have hmem : c ∈ natChars j := by
      rw [hed]
      exact List.mem_of_getLast?_eq_some hc
    exact (hgood c hmem).1

/-- Helper: `takeWhile` keeps a list all of whose characters satisfy the
predicate. -/
theorem takeWhile_all_self (p : Char → Bool) (l : List Char)
    (h : ∀ c ∈ l, p c = true) : l.takeWhile p = l :=
  List.takeWhile_eq_self_iff.mpr h

/-- Helper: the raw sheet name of a short clause text consisting only of
plain characters: trimming, the ellipsis checks and the first-line
extraction all leave the text unchanged, and it survives the 20-character
cut. -/
theorem sheetNameRaw_short (t : List Char) (hne : t ≠ [])
    (hlen : t.length ≤ 20)
    (hgood : ∀ c ∈ t,
      isWS c = false ∧ sheetBadChar c = false ∧
      c ≠ '\n' ∧ c ≠ '\r' ∧ c ≠ '…') :
    sheetNameRaw t 1 = "Clause 1: ".data ++ t := by
  obtain ⟨c0, t0, rfl⟩ : ∃ c0 t0, t = c0 :: t0 := by
    cases hx : t with
    | nil => exact absurd hx hne
    | cons c0 t0 => exact ⟨c0, t0, rfl⟩
  have htrim : trimChars (c0 :: t0) = c0 :: t0 := by
    apply trimChars_eq_self
    · intro c hc
      rw [List.head?_cons] at hc
      injection hc with hc2
      rw [← hc2]
      exact (hgood c0 (List.mem_cons_self _ _)).1
    · intro c hc
      exact (hgood c (List.mem_of_getLast?_eq_some hc)).1
  have hcond1 : ¬ (c0 :: t0 = [] ∨ c0 :: t0 = ['…']) := by
    rintro (h | h)
    · exact List.cons_ne_nil _ _ h
    · have hm : '…' ∈ c0 :: t0 := by rw [h]; exact List.mem_cons_self _ _
      exact (hgood _ hm).2.2.2.2 rfl
  have hcond2 : ¬ ((c0 :: t0).getLast? = some '…') := by
    intro h
    exact (hgood _ (List.mem_of_getLast?_eq_some h)).2.2.2.2 rfl
  have htw1 : (c0 :: t0).takeWhile (fun x => decide (x ≠ '\n'))
      = c0 :: t0 := by
    apply takeWhile_all_self
    intro c hc
    simp only [decide_eq_true_eq]
    exact (hgood c hc).2.2.1
  have htw2 : (c0 :: t0).takeWhile (fun x => decide (x ≠ '\x0d'))
      = c0 :: t0 := by
    apply takeWhile_all_self
    intro c hc
    simp only [decide_eq_true_eq]
    exact (hgood c hc).2.2.2.1
  have hlen5 : ¬ ((c0 :: t0).length > 20) := by omega
  have hlen0 : (c0 :: t0).length > 0 := by
    simp only [List.length_cons]
    omega
  unfold sheetNameRaw
  rw [htrim, if_neg hcond1, if_neg hcond2]
  simp only [htw1, htw2, htrim]
  rw [if_neg hlen5, if_pos hlen0]
  rfl

/-- Helper: finalizing the raw name of a short plain clause text replaces
its colon, keeps everything else, fits in 31 characters and is not
blank. -/
theorem sheetNameFinalize_short (t : List Char) (_hne : t ≠ [])
    (hlen : t.length ≤ 20)
    (hgood : ∀ c ∈ t,
      isWS c = false ∧ sheetBadChar c = false ∧
      c ≠ '\n' ∧ c ≠ '\r' ∧ c ≠ '…') :
    sheetNameFinalize ("Clause 1: ".data ++ t) 1 = "Clause 1_ ".data ++ t := by
  have hd : sheetNameReplaced t = t := by
    unfold sheetNameReplaced
    conv_rhs => rw [← List.map_id t]
    apply List.map_congr_left
    intro c hc
    simp [(hgood c hc).2.1]
  have hrep : sheetNameReplaced ("Clause 1: ".data ++ t)
      = "Clause 1_ ".data ++ t := by
    rw [show sheetNameReplaced ("Clause 1: ".data ++ t)
          = sheetNameReplaced "Clause 1: ".data ++ sheetNameReplaced t from
        List.map_append _ _ _,
       hd,
       show sheetNameReplaced "Clause 1: ".data = "Clause 1_ ".data from
        by decide]
  have htrunc : sheetNameTrunc ("Clause 1: ".data ++ t)
      = "Clause 1_ ".data ++ t := by
    unfold sheetNameTrunc
    rw [hrep]
    have h10 : ("Clause 1_ ".data).length = 10 := by decide
    rw [if_neg (by simp only [List.length_append, h10]; omega)]
  unfold sheetNameFinalize
  rw [htrunc]
  rw [if_neg (show ¬ (trimChars ("Clause 1_ ".data ++ t) = []) from
    trimChars_cons_ne 'C' ("lause 1_ ".data ++ t) (by decide))]

/-- Helper: the full sheet name of a short plain clause text under clause
number 1. -/
theorem sheetNameFor_short (t : List Char) (hne : t ≠ [])
    (hlen : t.length ≤ 20)
    (hgood : ∀ c ∈ t,
      isWS c = false ∧ sheetBadChar c = false ∧
      c ≠ '\n' ∧ c ≠ '\r' ∧ c ≠ '…') :
    sheetNameFor t 1 = "Clause 1_ ".data ++ t := by
  unfold sheetNameFor
  rw [sheetNameRaw_short t hne hlen hgood,
      sheetNameFinalize_short t hne hlen hgood]

/-- Helper: the full sheet name computed for a clause text `A_<digits>`
with clause number 1 is the dedup candidate built from the shared base
`bnA`. -/
theorem sheetNameFor_ttA (j : Nat) (h1 : 1 ≤ j) (h2 : j ≤ 100) :
    sheetNameFor (ttA j).data 1 = nmA j := by
  obtain ⟨hne, hl3, hgood⟩ := natChars_facts j h1 h2
  have hdata : (ttA j).data = 'A' :: '_' :: natChars j := rfl
  have hgoodA : ∀ c ∈ 'A' :: '_' :: natChars j,
      isWS c = false ∧ sheetBadChar c = false ∧
      c ≠ '\n' ∧ c ≠ '\r' ∧ c ≠ '…' := by
    intro c hc
    rcases List.mem_cons.mp hc with rfl | hc2
    · exact ⟨by decide, by decide, by decide, by decide, by decide⟩
    rcases List.mem_cons.mp hc2 with rfl | hc3
    · exact ⟨by decide, by decide, by decide, by decide, by decide⟩
    · exact hgood c hc3
  rw [hdata, sheetNameFor_short ('A' :: '_' :: natChars j)
    (List.cons_ne_nil _ _)
    (by simp only [List.length_cons]; omega) hgoodA]
  rfl

/-- Helper: the sheet name of the first colliding clause. -/
theorem sheetNameFor_base1 : sheetNameFor "A\nz".data 1 = bnA := by decide

/-- Helper: the sheet name of the last colliding clause. -/
theorem sheetNameFor_base2 : sheetNameFor "A\nz2".data 1 = bnA := by decide

/-- Helper: the shared base name is trim-stable. -/
theorem trimChars_bnA : trimChars bnA = bnA := by decide

/-- Helper: a comparator that holds between all pairs of a list's
elements makes the insertion sort a no-op (the stable sort keeps the
input order of ties). -/
theorem insertionSort_eq_self_of_total {α : Type} (r : α → α → Prop)
    [DecidableRel r] :
    ∀ l : List α, (∀ a ∈ l, ∀ b ∈ l, r a b) → l.insertionSort r = l := by
  intro l
  induction l with
  | nil => intro _; rfl
  | cons a t ih =>
      intro h
      have ht : t.insertionSort r = t :=
        ih (fun x hx y hy =>
          h x (List.mem_cons_of_mem _ hx) y (List.mem_cons_of_mem _ hy))
      show List.orderedInsert r a (t.insertionSort r) = a :: t
      rw [ht]
      cases t with
      | nil => rfl
      | cons b t' =>
          exact List.orderedInsert_of_le r t'
            (h a (List.mem_cons_self _ _) b (by simp))

/-- Helper: with pairwise-distinct clause texts, the first-appearance
fold simply appends every clause text in order. -/
theorem clauseOrderOf_foldl_nodup :
    ∀ (rs : List AnalysisResult) (acc : List String),
      (∀ r ∈ rs, r.apple_clause ∉ acc) →
      (rs.map (fun r => r.apple_clause)).Nodup →
      rs.foldl (fun ks r => if ks.contains r.apple_clause then ks
                            else ks ++ [r.apple_clause]) acc
        = acc ++ rs.map (fun r => r.apple_clause) := by
  intro rs
  induction rs with
  | nil => intro acc _ _; simp
  | cons r t ih =>
      intro acc hnot hnd
      rw [List.foldl_cons]
      rw [if_neg (by simpa using hnot r (List.mem_cons_self _ _))]
      rw [List.map_cons] at hnd
      have hnd2 := List.nodup_cons.mp hnd
      rw [ih (acc ++ [r.apple_clause]) ?hnot2 hnd2.2]
      · simp
      case hnot2 =>
        intro x hx hmem
        rcases List.mem_append.mp hmem with h | h
        · exact hnot x (List.mem_cons_of_mem _ hx) h
        · exact hnd2.1 ((List.mem_singleton.mp h) ▸
            List.mem_map.mpr ⟨x, hx, rfl⟩)

/-- Helper: with pairwise-distinct clause texts the first-appearance
order is just the list of clause texts. -/
theorem clauseOrderOf_of_nodup (rs : List AnalysisResult)
    (h : (rs.map (fun r => r.apple_clause)).Nodup) :
    clauseOrderOf rs = rs.map (fun r => r.apple_clause) := by
  have hfold := clauseOrderOf_foldl_nodup rs [] (by simp) h
  simpa [clauseOrderOf] using hfold

/-- Helper: when every result carries `_clause_idx` 0 and the clause text
occurs in the results, the recorded index is 0. -/
theorem clauseIndices_all_zero (rs : List AnalysisResult)
    (hall : ∀ r ∈ rs, r.clause_idx = some 0) (k : String)
    (hk : ∃ r ∈ rs, r.apple_clause = k) :
    clauseIndices rs k = some 0 := by
  obtain ⟨r, hr, hrk⟩ := hk
  have hsome : (rs.find? (fun r2 => r2.apple_clause == k)).isSome := by
    rw [List.find?_isSome]
    exact ⟨r, hr, by simp [hrk]⟩
  obtain ⟨r2, hr2⟩ := Option.isSome_iff_exists.mp hsome
  unfold clauseIndices
  rw [hr2]
  exact hall r2 (List.mem_of_find?_eq_some hr2)

/-- Helper: the effective sort key is 0 when every `_clause_idx` is 0. -/
theorem effectiveIdx_all_zero (rs : List AnalysisResult)
    (hall : ∀ r ∈ rs, r.clause_idx = some 0) (k : String)
    (hk : ∃ r ∈ rs, r.apple_clause = k) :
    effectiveIdx rs k = 0 := by
  unfold effectiveIdx
  rw [clauseIndices_all_zero rs hall k hk]

/-- Helper: the Excel clause number is 1 when every `_clause_idx` is 0. -/
theorem excelClauseIdx_all_zero (rs : List AnalysisResult)
    (hall : ∀ r ∈ rs, r.clause_idx = some 0) (k : String)
    (hk : ∃ r ∈ rs, r.apple_clause = k) :
    excelClauseIdx rs k = 0 := by
  unfold excelClauseIdx
  rw [clauseIndices_all_zero rs hall k hk]

/-- Helper: the clause texts of the colliding example, in order. -/
theorem collidingClauses_map :
    collidingClauses.map (fun r => r.apple_clause)
      = "A\nz" :: ((((List.range 100).map fun k => ttA (k + 1))) ++ ["A\nz2"]) := by
  unfold collidingClauses
  simp only [List.map_append, List.map_cons, List.map_map, List.map_nil,
    List.cons_append]
  rfl

/-- Helper: every colliding result records clause index 0. -/
theorem collidingClauses_idx :
    ∀ r ∈ collidingClauses, r.clause_idx = some 0 := by
  intro r hr
  unfold collidingClauses at hr
  rcases List.mem_append.mp hr with h | h
  · rcases List.mem_cons.mp h with rfl | h2
    · rfl
    · obtain ⟨k, _, rfl⟩ := List.mem_map.mp h2
      rfl
  · rw [List.mem_singleton.mp h]
    rfl

/-- Helper: each taker text occurs among the colliding results. -/
theorem ttA_mem_colliding (j : Nat) (h1 : 1 ≤ j) (h2 : j ≤ 100) :
    ∃ r ∈ collidingClauses, r.apple_clause = ttA j := by
  refine ⟨sampleResult (ttA j) "f.pdf" (some 0), ?_, rfl⟩
  unfold collidingClauses
  apply List.mem_append_left
  apply List.mem_cons_of_mem
  refine List.mem_map.mpr ⟨j - 1, List.mem_range.mpr (by omega), ?_⟩
  have hj : j - 1 + 1 = j := by omega
  rw [hj]

/-- Helper: the first base text occurs among the colliding results. -/
theorem base1_mem_colliding :
    ∃ r ∈ collidingClauses, r.apple_clause = "A\nz" :=
  ⟨sampleResult "A\nz" "f.pdf" (some 0),
    List.mem_append_left _ (List.mem_cons_self _ _), rfl⟩

/-- Helper: the second base text occurs among the colliding results. -/
theorem base2_mem_colliding :
    ∃ r ∈ collidingClauses, r.apple_clause = "A\nz2" := by
  refine ⟨sampleResult "A\nz2" "f.pdf" (some 0), ?_, rfl⟩
  unfold collidingClauses
  exact List.mem_append_right _ (List.mem_singleton.mpr rfl)

/-- Helper: no taker text equals the first base text (they differ at the
second character). -/
theorem ttA_ne_base1 (j : Nat) : ttA j ≠ "A\nz" := by
  intro he
  have h2 : (['A', '_'] : List Char) = ['A', '\n'] :=
    congrArg (fun s => s.data.take 2) he
  exact absurd h2 (by decide)

/-- Helper: no taker text equals the second base text. -/
theorem ttA_ne_base2 (j : Nat) : ttA j ≠ "A\nz2" := by
  intro he
  have h2 : (['A', '_'] : List Char) = ['A', '\n'] :=
    congrArg (fun s => s.data.take 2) he
  exact absurd h2 (by decide)

/-- Helper: the taker texts are pairwise distinct. -/
theorem takers_nodup :
    (((List.range 100).map fun k => ttA (k + 1))).Nodup := by
  refine List.Nodup.map_on ?_ (List.nodup_range 100)
  intro x hx y hy he
  have hx9 := List.mem_range.mp hx
  have hy9 := List.mem_range.mp hy
  have hdd : 'A' :: '_' :: natChars (x + 1) = 'A' :: '_' :: natChars (y + 1) :=
    congrArg String.data he
  injection hdd with hh ht
  injection ht with hh2 ht2
  have := natChars_inj_range (x + 1) (y + 1)
    (by omega) (by omega) (by omega) (by omega) ht2
  omega

/-- Helper: all 102 colliding clause texts are pairwise distinct. -/
theorem colliding_texts_nodup :
    ("A\nz" :: ((((List.range 100).map fun k => ttA (k + 1))) ++ ["A\nz2"])).Nodup := by
  rw [List.nodup_cons]
  constructor
  · intro hmem
    rcases List.mem_append.mp hmem with h | h
    · obtain ⟨k, _, hk⟩ := List.mem_map.mp h
      exact ttA_ne_base1 (k + 1) hk
    · have hb : "A\nz" = "A\nz2" := List.mem_singleton.mp h
      exact absurd hb (by decide)
  · rw [List.nodup_append]
    refine ⟨takers_nodup, List.nodup_singleton _, ?_⟩
    intro x hx hx2
    obtain ⟨k, _, hk⟩ := List.mem_map.mp hx
    rw [List.mem_singleton.mp hx2] at hk
    exact ttA_ne_base2 (k + 1) hk

/-- Helper: the colliding example's sorted clause order is simply its
first-appearance order, since all effective indices are 0. -/
theorem sortedClauses_colliding :
    sortedClauses collidingClauses
      = "A\nz" :: ((((List.range 100).map fun k => ttA (k + 1))) ++ ["A\nz2"]) := by
  have hnd : (collidingClauses.map (fun r => r.apple_clause)).Nodup := by
    rw [collidingClauses_map]
    exact colliding_texts_nodup
  have horder := clauseOrderOf_of_nodup collidingClauses hnd
  rw [collidingClauses_map] at horder
  unfold sortedClauses
  rw [horder]
  apply insertionSort_eq_self_of_total
  intro a ha b hb
  have hmema : ∃ r ∈ collidingClauses, r.apple_clause = a := by
    have ham : a ∈ collidingClauses.map (fun r => r.apple_clause) := by
      rw [collidingClauses_map]; exact ha
    obtain ⟨r, hr, hrc⟩ := List.mem_map.mp ham
    exact ⟨r, hr, hrc⟩
  have hmemb : ∃ r ∈ collidingClauses, r.apple_clause = b := by
    have hbm : b ∈ collidingClauses.map (fun r => r.apple_clause) := by
      rw [collidingClauses_map]; exact hb
    obtain ⟨r, hr, hrc⟩ := List.mem_map.mp hbm
    exact ⟨r, hr, hrc⟩
  rw [effectiveIdx_all_zero collidingClauses collidingClauses_idx a hmema,
      effectiveIdx_all_zero collidingClauses collidingClauses_idx b hmemb]

/-- Helper: in the colliding example every clause's Excel number is 1. -/
theorem excelClauseIdx_colliding (k : String)
    (hk : ∃ r ∈ collidingClauses, r.apple_clause = k) :
    excelClauseIdx collidingClauses k + 1 = 1 := by
  rw [excelClauseIdx_all_zero collidingClauses collidingClauses_idx k hk]

/-- Helper: step `j` of the colliding fold sees a fresh candidate: `nmA j`
differs from the base name and from all earlier candidates. -/
theorem nmA_notin_acc (j i : Nat) (h1 : 1 ≤ j) (h2 : j ≤ 100) (hij : i < j) :
    nmA j ∉ bnA :: (List.range' 1 i).map nmA := by
  intro hmem
  rcases List.mem_cons.mp hmem with h | h
  · exact bnA_ne_nmA j h1 h2 h.symm
  · obtain ⟨m, hm, hmj⟩ := List.mem_map.mp h
    have hm2 := List.mem_range'_1.mp hm
    have hinj := nmA_inj m j (by omega) (by omega) h1 h2 hmj
    omega

/-- Helper: the dedup step for candidate `nmA j` over the accumulated names
`bnA, nmA 1, …, nmA i` with `i < j` returns the candidate unchanged. -/
theorem finalSheetNameFor_nmA (j i : Nat) (h1 : 1 ≤ j) (h2 : j ≤ 100)
    (hij : i < j) :
    finalSheetNameFor (nmA j) (bnA :: (List.range' 1 i).map nmA) = nmA j := by
  unfold finalSheetNameFor
  rw [trimChars_nmA j h1 h2]
  exact pickLoopAux_notin _ _ _ _ _ (nmA_notin_acc j i h1 h2 hij)

/-- Helper: when the current candidate and every remaining `_j` candidate
with `j ≤ 99` are already taken, the dedup loop runs into its safety break
and returns the name `bn_100` unchecked. -/
theorem pickLoopAux_all_taken (bn : List Char) (taken : List (List Char)) :
    ∀ (fuel counter : Nat) (cur : List Char),
      1 ≤ counter → counter ≤ 100 → 101 ≤ counter + fuel →
      cur ∈ taken →
      (∀ j, counter ≤ j → j ≤ 99 → (bn ++ '_' :: natChars j) ∈ taken) →
      pickLoopAux bn taken fuel counter cur = bn ++ '_' :: natChars 100 := by
  intro fuel
  induction fuel with
  | zero => intro counter cur h1 h2 h3 _ _; omega
  | succ f ih =>
      intro counter cur h1 h2 h3 hcur hall
      have hred : pickLoopAux bn taken (f + 1) counter cur =
          if counter + 1 > 100 then bn ++ '_' :: natChars counter
          else pickLoopAux bn taken f (counter + 1)
            (bn ++ '_' :: natChars counter) := by
        simp [pickLoopAux, hcur]
      by_cases h100 : counter + 1 > 100
      · rw [hred, if_pos h100]
        have hc : counter = 100 := by omega
        rw [hc]
      · rw [hred, if_neg h100]
        exact ih (counter + 1) _ (by omega) (by omega) (by omega)
          (hall counter (Nat.le_refl _) (by omega))
          (fun j hj1 hj2 => hall j (by omega) hj2)

/-- Helper: folding the Excel naming step over the taker texts appends
exactly the dedup candidates `nmA (i+1), …, nmA (i+m)` to the
accumulated names. -/
theorem colliding_taker_fold :
    ∀ (m i : Nat), i + m ≤ 100 →
      ((List.range' (i + 1) m).map (fun k => ttA k)).foldl
        (fun acc clause => acc ++ [finalSheetNameFor
          (sheetNameFor clause.data
            (excelClauseIdx collidingClauses clause + 1)) acc])
        (bnA :: (List.range' 1 i).map nmA)
      = bnA :: (List.range' 1 (i + m)).map nmA := by
  intro m
  induction m with
  | zero => intro i h; simp
  | succ m ih =>
      intro i h
      rw [List.range'_succ]
      simp only [List.map_cons, List.foldl_cons]
      rw [excelClauseIdx_colliding _ (ttA_mem_colliding (i + 1) (by omega) (by omega)),
          sheetNameFor_ttA (i + 1) (by omega) (by omega),
          finalSheetNameFor_nmA (i + 1) i (by omega) (by omega) (by omega)]
      have hconcat : (bnA :: (List.range' 1 i).map nmA) ++ [nmA (i + 1)]
          = bnA :: (List.range' 1 (i + 1)).map nmA := by
        rw [List.cons_append, List.range'_1_concat, List.map_append]
        rw [show (1 + i) = i + 1 from Nat.add_comm 1 i]
        rfl
      rw [hconcat]
      rw [show i + (m + 1) = (i + 1) + m from by omega]
      exact ih (i + 1) (by omega)

/-- Helper: the first Excel naming step on the empty workbook returns the
base name. -/
theorem finalSheetNameFor_start : finalSheetNameFor bnA [] = bnA := by
  unfold finalSheetNameFor
  rw [trimChars_bnA]
  exact pickLoopAux_notin _ _ _ _ _ (List.not_mem_nil _)

/-- Helper: the 102nd Excel naming step: the base name and all dedup
candidates up to `_99` are taken, so the loop's safety break returns the
unchecked duplicate `nmA 100`. -/
theorem finalSheetNameFor_last :
    finalSheetNameFor bnA (bnA :: (List.range' 1 100).map nmA) = nmA 100 := by
  unfold finalSheetNameFor
  rw [trimChars_bnA]
  rw [if_neg (show ¬ (bnA.length > 25) from by rw [bnA_length]; omega)]
  exact pickLoopAux_all_taken bnA _ 101 1 bnA (by omega) (by omega) (by omega)
    (List.mem_cons_self _ _)
    (fun j hj1 hj2 => List.mem_cons_of_mem _
      (List.mem_map.mpr ⟨j, List.mem_range'_1.mpr ⟨hj1, by omega⟩, rfl⟩))

/-- Helper: the taker texts, rewritten as a map over `range' 1 100`. -/
theorem takers_as_range' :
    ((List.range 100).map fun k => ttA (k + 1))
      = (List.range' (0 + 1) 100).map (fun k => ttA k) := by
  rw [List.range'_eq_map_range, List.map_map]
  apply List.map_congr_left
  intro k _
  show ttA (k + 1) = ttA (0 + 1 + k)
  rw [show 0 + 1 + k = k + 1 from by omega]

/-- Helper: the colliding example's full workbook name list: the base
name, the 100 dedup candidates, and then the unchecked `nmA 100` again. -/
theorem sheetNames_colliding :
    sheetNames collidingClauses
      = (bnA :: (List.range' 1 100).map nmA) ++ [nmA 100] := by
  unfold sheetNames
  rw [sortedClauses_colliding]
  simp only [List.foldl_cons, List.foldl_append, List.foldl_nil]
  rw [excelClauseIdx_colliding _ base1_mem_colliding, sheetNameFor_base1,
      excelClauseIdx_colliding _ base2_mem_colliding, sheetNameFor_base2]
  rw [show ([] ++ [finalSheetNameFor bnA []]) = [finalSheetNameFor bnA []]
      from List.nil_append _]
  rw [finalSheetNameFor_start]
  rw [takers_as_range']
  rw [show ([bnA] : List (List Char)) = bnA :: (List.range' 1 0).map nmA from rfl]
  rw [colliding_taker_fold 100 0 (by omega)]
  rw [show (0 + 100) = 100 from Nat.zero_add 100]
  rw [finalSheetNameFor_last]

/-- **C10, counterexample.**  The claim says sheet names are pairwise
distinct for every results list.  With 102 distinct clauses that all map
to the sheet name `Clause 1_ A` (or to one of its `_k`-suffixed dedup
candidates), the dedup loop's safety break (`if (counter > 100) break`)
returns `Clause 1_ A_100` without checking it, and the workbook ends with
that name twice. -/
theorem sheetNames_duplicate_at_102 :
    ¬ (sheetNames collidingClauses).Nodup := by
  rw [sheetNames_colliding]
  intro h
  rw [List.nodup_append] at h
  exact h.2.2 (List.mem_cons_of_mem _
    (List.mem_map.mpr ⟨100, List.mem_range'_1.mpr ⟨by omega, by omega⟩, rfl⟩))
    (List.mem_singleton.mpr rfl)

/-- Helper: distinct counters in `1 … 100` give distinct candidates over
the 25-character base `bnB`. -/
theorem nmB_inj (i j : Nat) (hi1 : 1 ≤ i) (hi2 : i ≤ 100)
    (hj1 : 1 ≤ j) (hj2 : j ≤ 100) (he : nmB i = nmB j) : i = j := by
  unfold nmB at he
  have h1 := List.append_cancel_left he
  injection h1 with hh ht
  exact natChars_inj_range i j hi1 hi2 hj1 hj2 ht

/-- Helper: the `bnB` candidate names are trim-stable. -/
theorem trimChars_nmB (j : Nat) (h1 : 1 ≤ j) (h2 : j ≤ 100) :
    trimChars (nmB j) = nmB j := by
  obtain ⟨hne, _, hgood⟩ := natChars_facts j h1 h2
  apply trimChars_eq_self
  · intro c hc
    have hh : (nmB j).head? = some 'C' := rfl
    rw [hh] at hc
    injection hc with hc2
    rw [← hc2]
    decide
  · intro c hc
    obtain ⟨e, d', hed⟩ : ∃ e d', natChars j = e :: d' := by
      cases hx : natChars j with
      | nil => exact absurd hx hne
      | cons e d' => exact ⟨e, d', rfl⟩
    rw [nmB, List.getLast?_append_cons, hed, List.getLast?_cons_cons] at hc
    have hmem : c ∈ natChars j := by
      rw [hed]
      exact List.mem_of_getLast?_eq_some hc
    exact (hgood c hmem).1

/-- Helper: the clause texts of the 101-clause example, in order. -/
theorem collidingClauses101_map :
    collidingClauses101.map (fun r => r.apple_clause)
      = (((List.range 100).map fun k => ttB (k + 1)))
        ++ ["AAAAAAAAAAAAAAA_100\nX"] := by
  unfold collidingClauses101
  simp only [List.map_append, List.map_cons, List.map_map, List.map_nil]
  rfl

/-- Helper: every result of the 101-clause example records clause
index 0. -/
theorem collidingClauses101_idx :
    ∀ r ∈ collidingClauses101, r.clause_idx = some 0 := by
  intro r hr
  unfold collidingClauses101 at hr
  rcases List.mem_append.mp hr with h | h
  · obtain ⟨k, _, rfl⟩ := List.mem_map.mp h
    rfl
  · rw [List.mem_singleton.mp h]
    rfl

/-- Helper: each `ttB` text occurs among the 101 colliding results. -/
theorem ttB_mem_colliding101 (j : Nat) (h1 : 1 ≤ j) (h2 : j ≤ 100) :
    ∃ r ∈ collidingClauses101, r.apple_clause = ttB j := by
  refine ⟨sampleResult (ttB j) "f.pdf" (some 0), ?_, rfl⟩
  unfold collidingClauses101
  apply List.mem_append_left
  refine List.mem_map.mpr ⟨j - 1, List.mem_range.mpr (by omega), ?_⟩
  have hj : j - 1 + 1 = j := by omega
  rw [hj]

/-- Helper: the 101st clause text occurs among the colliding results. -/
theorem tX_mem_colliding101 :
    ∃ r ∈ collidingClauses101,
      r.apple_clause = "AAAAAAAAAAAAAAA_100\nX" := by
  refine ⟨sampleResult "AAAAAAAAAAAAAAA_100\nX" "f.pdf" (some 0), ?_, rfl⟩
  unfold collidingClauses101
  exact List.mem_append_right _ (List.mem_singleton.mpr rfl)

/-- Helper: no `ttB` text equals the 101st clause text (their lengths
differ). -/
theorem ttB_ne_tX (j : Nat) (h1 : 1 ≤ j) (h2 : j ≤ 100) :
    ttB j ≠ "AAAAAAAAAAAAAAA_100\nX" := by
  intro he
  obtain ⟨hne, hl3, _⟩ := natChars_facts j h1 h2
  have hlen : (ttB j).data.length = ("AAAAAAAAAAAAAAA_100\nX".data).length :=
    congrArg (fun s => s.data.length) he
  have hdata : (ttB j).data = "AAAAAAAAAAAAAAA_".data ++ natChars j := rfl
  have h16 : ("AAAAAAAAAAAAAAA_".data).length = 16 := by decide
  have h21 : ("AAAAAAAAAAAAAAA_100\nX".data).length = 21 := by decide
  rw [hdata, List.length_append, h16, h21] at hlen
  omega

/-- Helper: the `ttB` texts are pairwise distinct. -/
theorem takers_nodupB :
    (((List.range 100).map fun k => ttB (k + 1))).Nodup := by
  refine List.Nodup.map_on ?_ (List.nodup_range 100)
  intro x hx y hy he
  have hx9 := List.mem_range.mp hx
  have hy9 := List.mem_range.mp hy
  have hdd : "AAAAAAAAAAAAAAA_".data ++ natChars (x + 1)
      = "AAAAAAAAAAAAAAA_".data ++ natChars (y + 1) := congrArg String.data he
  have ht2 := List.append_cancel_left hdd
  have hxy := natChars_inj_range (x + 1) (y + 1)
    (by omega) (by omega) (by omega) (by omega) ht2
  omega

/-- Helper: all 101 clause texts are pairwise distinct. -/
theorem colliding101_texts_nodup :
    ((((List.range 100).map fun k => ttB (k + 1)))
      ++ ["AAAAAAAAAAAAAAA_100\nX"]).Nodup := by
  rw [List.nodup_append]
  refine ⟨takers_nodupB, List.nodup_singleton _, ?_⟩
  intro x hx hx2
  obtain ⟨k, hk, hkx⟩ := List.mem_map.mp hx
  have hk1 := List.mem_range.mp hk
  rw [List.mem_singleton.mp hx2] at hkx
  exact ttB_ne_tX (k + 1) (by omega) (by omega) hkx

/-- Helper: the 101-clause example's sorted clause order is its
first-appearance order: all effective indices are 0. -/
theorem sortedClauses_colliding101 :
    sortedClauses collidingClauses101
      = (((List.range 100).map fun k => ttB (k + 1)))
        ++ ["AAAAAAAAAAAAAAA_100\nX"] := by
  have hnd : (collidingClauses101.map (fun r => r.apple_clause)).Nodup := by
    rw [collidingClauses101_map]
    exact colliding101_texts_nodup
  have horder := clauseOrderOf_of_nodup collidingClauses101 hnd
  rw [collidingClauses101_map] at horder
  unfold sortedClauses
  rw [horder]
  apply insertionSort_eq_self_of_total
  intro a ha b hb
  have hmema : ∃ r ∈ collidingClauses101, r.apple_clause = a := by
    have ham : a ∈ collidingClauses101.map (fun r => r.apple_clause) := by
      rw [collidingClauses101_map]; exact ha
    obtain ⟨r, hr, hrc⟩ := List.mem_map.mp ham
    exact ⟨r, hr, hrc⟩
  have hmemb : ∃ r ∈ collidingClauses101, r.apple_clause = b := by
    have hbm : b ∈ collidingClauses101.map (fun r => r.apple_clause) := by
      rw [collidingClauses101_map]; exact hb
    obtain ⟨r, hr, hrc⟩ := List.mem_map.mp hbm
    exact ⟨r, hr, hrc⟩
  rw [effectiveIdx_all_zero collidingClauses101 collidingClauses101_idx
        a hmema,
      effectiveIdx_all_zero collidingClauses101 collidingClauses101_idx
        b hmemb]

/-- Helper: in the 101-clause example every clause's Excel number is 1. -/
theorem excelClauseIdx_colliding101 (k : String)
    (hk : ∃ r ∈ collidingClauses101, r.apple_clause = k) :
    excelClauseIdx collidingClauses101 k + 1 = 1 := by
  rw [excelClauseIdx_all_zero collidingClauses101 collidingClauses101_idx
    k hk]

/-- Helper: candidate `nmB j` is fresh over the earlier candidates. -/
theorem nmB_notin_acc (j i : Nat) (h1 : 1 ≤ j) (h2 : j ≤ 100) (hij : i < j) :
    nmB j ∉ (List.range' 1 i).map nmB := by
  intro hmem
  obtain ⟨m, hm, hmj⟩ := List.mem_map.mp hmem
  have hm2 := List.mem_range'_1.mp hm
  have hinj := nmB_inj m j (by omega) (by omega) h1 h2 hmj
  omega

/-- Helper: the dedup step for candidate `nmB j` over the accumulated
names `nmB 1 … nmB i` with `i < j` returns the candidate unchanged. -/
theorem finalSheetNameFor_nmB (j i : Nat) (h1 : 1 ≤ j) (h2 : j ≤ 100)
    (hij : i < j) :
    finalSheetNameFor (nmB j) ((List.range' 1 i).map nmB) = nmB j := by
  unfold finalSheetNameFor
  rw [trimChars_nmB j h1 h2]
  exact pickLoopAux_notin _ _ _ _ _ (nmB_notin_acc j i h1 h2 hij)

/-- Helper: the full sheet name computed for a clause text
`AAAAAAAAAAAAAAA_<digits>` with clause number 1 is the dedup candidate
built from the 25-character base `bnB`. -/
theorem sheetNameFor_ttB (j : Nat) (h1 : 1 ≤ j) (h2 : j ≤ 100) :
    sheetNameFor (ttB j).data 1 = nmB j := by
  obtain ⟨hne, hl3, hgood⟩ := natChars_facts j h1 h2
  have hdata : (ttB j).data = "AAAAAAAAAAAAAAA_".data ++ natChars j := rfl
  have h16 : ("AAAAAAAAAAAAAAA_".data).length = 16 := by decide
  have hgoodB : ∀ c ∈ "AAAAAAAAAAAAAAA_".data ++ natChars j,
      isWS c = false ∧ sheetBadChar c = false ∧
      c ≠ '\n' ∧ c ≠ '\r' ∧ c ≠ '…' := by
    intro c hc
    rcases List.mem_append.mp hc with h | h
    · exact (show ∀ c ∈ "AAAAAAAAAAAAAAA_".data,
          isWS c = false ∧ sheetBadChar c = false ∧
          c ≠ '\n' ∧ c ≠ '\r' ∧ c ≠ '…' from by decide) c h
    · exact hgood c h
  have hneB : "AAAAAAAAAAAAAAA_".data ++ natChars j ≠ [] := by
    intro hnil
    have h0 := congrArg List.length hnil
    simp only [List.length_append, List.length_nil, h16] at h0
    omega
  rw [hdata, sheetNameFor_short _ hneB
    (by simp only [List.length_append, h16]; omega) hgoodB]
  rfl

/-- Helper: folding the Excel naming step over the `ttB` texts appends
exactly the candidates `nmB (i+1), …, nmB (i+m)`. -/
theorem colliding101_taker_fold :
    ∀ (m i : Nat), i + m ≤ 100 →
      ((List.range' (i + 1) m).map (fun k => ttB k)).foldl
        (fun acc clause => acc ++ [finalSheetNameFor
          (sheetNameFor clause.data
            (excelClauseIdx collidingClauses101 clause + 1)) acc])
        ((List.range' 1 i).map nmB)
      = (List.range' 1 (i + m)).map nmB := by
  intro m
  induction m with
  | zero => intro i h; simp
  | succ m ih =>
      intro i h
      rw [List.range'_succ]
      simp only [List.map_cons, List.foldl_cons]
      rw [excelClauseIdx_colliding101 _
            (ttB_mem_colliding101 (i + 1) (by omega) (by omega)),
          sheetNameFor_ttB (i + 1) (by omega) (by omega),
          finalSheetNameFor_nmB (i + 1) i (by omega) (by omega) (by omega)]
      have hconcat : ((List.range' 1 i).map nmB) ++ [nmB (i + 1)]
          = (List.range' 1 (i + 1)).map nmB := by
        rw [List.range'_1_concat, List.map_append]
        rw [show (1 + i) = i + 1 from Nat.add_comm 1 i]
        rfl
      rw [hconcat]
      rw [show i + (m + 1) = (i + 1) + m from by omega]
      exact ih (i + 1) (by omega)

/-- Helper: the 101st clause's own sheet name is again the candidate
`nmB 100`: its first line is `AAAAAAAAAAAAAAA_100`. -/
theorem sheetNameFor_tX :
    sheetNameFor ("AAAAAAAAAAAAAAA_100\nX".data) 1 = nmB 100 := by decide

/-- Helper: the 101st dedup run finds its own name and every `_k`
candidate taken (the base truncates to the 25-character `bnB`), so the
safety break returns `nmB 100` unchecked. -/
theorem finalSheetNameFor_last101 :
    finalSheetNameFor (nmB 100) ((List.range' 1 100).map nmB) = nmB 100 := by
  unfold finalSheetNameFor
  rw [trimChars_nmB 100 (by omega) (by omega)]
  rw [if_pos (show (nmB 100).length > 25 from by decide),
      show (nmB 100).take 25 = bnB from by decide]
  exact pickLoopAux_all_taken bnB _ 101 1 _ (by omega) (by omega) (by omega)
    (List.mem_map.mpr ⟨100, List.mem_range'_1.mpr ⟨by omega, by omega⟩, rfl⟩)
    (fun j hj1 hj2 =>
      List.mem_map.mpr ⟨j, List.mem_range'_1.mpr ⟨hj1, by omega⟩, rfl⟩)

/-- Helper: the `ttB` texts as a map over `range'`. -/
theorem takersB_as_range' :
    ((List.range 100).map fun k => ttB (k + 1))
      = (List.range' (0 + 1) 100).map (fun k => ttB k) := by
  rw [List.range'_eq_map_range, List.map_map]
  apply List.map_congr_left
  intro k _
  show ttB (k + 1) = ttB (0 + 1 + k)
  rw [show 0 + 1 + k = k + 1 from by omega]

/-- Helper: the 101-clause workbook's name list: the 100 candidates and
then the unchecked `nmB 100` again. -/
theorem sheetNames_colliding101 :
    sheetNames collidingClauses101
      = (List.range' 1 100).map nmB ++ [nmB 100] := by
  unfold sheetNames
  rw [sortedClauses_colliding101]
  simp only [List.foldl_cons, List.foldl_append, List.foldl_nil]
  rw [excelClauseIdx_colliding101 _ tX_mem_colliding101, sheetNameFor_tX]
  have hfold := colliding101_taker_fold 100 0 (by omega)
  rw [show ((List.range' 1 0).map nmB) = ([] : List (List Char)) from rfl]
    at hfold
  rw [show (0 + 100) = 100 from Nat.zero_add 100] at hfold
  rw [takersB_as_range', hfold]
  rw [finalSheetNameFor_last101]

/-- Helper: the duplicate already appears at 101 distinct clauses, so the
100-clause bound of the amended claim is sharp. -/
theorem sheetNames_duplicate_at_101 :
    ¬ (sheetNames collidingClauses101).Nodup := by
  rw [sheetNames_colliding101]
  intro h
  rw [List.nodup_append] at h
  exact h.2.2
    (List.mem_map.mpr ⟨100, List.mem_range'_1.mpr ⟨by omega, by omega⟩, rfl⟩)
    (List.mem_singleton.mpr rfl)

/-- Helper: with at most 99 names taken, the deduplicated name is always
fresh: either some checked candidate is free, or the loop ends in the
unchecked fallback `bn_100` — but a collision there would force the 100
pairwise-distinct names `bn_1 … bn_100` into a taken list of at most 99
entries. -/
theorem finalSheetNameFor_fresh (nm : List Char) (taken : List (List Char))
    (hlen : taken.length ≤ 99) :
    finalSheetNameFor nm taken ∉ taken := by
  by_cases hex : ∃ k, 1 ≤ k ∧ k ≤ 99 ∧
      ((if nm.length > 25 then nm.take 25 else nm) ++ '_' :: natChars k)
        ∉ taken
  · unfold finalSheetNameFor
    exact pickLoopAux_avoids _ taken 101 1 _ (by omega) hex
  · push_neg at hex
    by_cases hcur : trimChars nm ∈ taken
    · unfold finalSheetNameFor
      rw [pickLoopAux_all_taken _ taken 101 1 _ (by omega) (by omega)
        (by omega) hcur hex]
      intro hmem
      have hnodup : ((List.range 100).map
          (fun i => (if nm.length > 25 then nm.take 25 else nm)
            ++ '_' :: natChars (i + 1))).Nodup := by
        refine List.Nodup.map_on ?_ (List.nodup_range 100)
        intro x hx y hy he
        have hx1 := List.mem_range.mp hx
        have hy1 := List.mem_range.mp hy
        have htail := List.append_cancel_left he
        injection htail with hh ht
        have hxy := natChars_inj_range (x + 1) (y + 1) (by omega) (by omega)
          (by omega) (by omega) ht
        omega
      have hsub : ((List.range 100).map
          (fun i => (if nm.length > 25 then nm.take 25 else nm)
            ++ '_' :: natChars (i + 1))) ⊆ taken := by
        intro x hx
        rcases List.mem_map.mp hx with ⟨i, hi, rfl⟩
        have hi1 := List.mem_range.mp hi
        by_cases h99 : i + 1 ≤ 99
        · exact hex (i + 1) (by omega) h99
        · have h100 : i + 1 = 100 := by omega
          rw [h100]
          exact hmem
      have h1 : ((List.range 100).map
          (fun i => (if nm.length > 25 then nm.take 25 else nm)
            ++ '_' :: natChars (i + 1))).toFinset.card = 100 := by
        rw [List.toFinset_card_of_nodup hnodup]
        simp
      have h2 : ((List.range 100).map
            (fun i => (if nm.length > 25 then nm.take 25 else nm)
              ++ '_' :: natChars (i + 1))).toFinset.card
          ≤ taken.toFinset.card :=
        Finset.card_le_card (fun x hx =>
          List.mem_toFinset.mpr (hsub (List.mem_toFinset.mp hx)))
      have h3 : taken.toFinset.card ≤ taken.length := taken.toFinset_card_le
      omega
    · unfold finalSheetNameFor
      rw [pickLoopAux_notin _ _ _ _ _ hcur]
      exact hcur

/-- Helper: sheet names stay within 31 characters through the naming fold,
for every accumulated list — no bound on the number of clauses. -/
theorem foldl_names_length (g : String → List Char)
    (hg : ∀ c, (g c).length ≤ 31) :
    ∀ (cls : List String) (acc : List (List Char)),
      (∀ n ∈ acc, n.length ≤ 31) →
      ∀ n ∈ cls.foldl (fun acc clause =>
          acc ++ [finalSheetNameFor (g clause) acc]) acc, n.length ≤ 31 := by
  intro cls
  induction cls with
  | nil => intro acc h2 n hn; exact h2 n hn
  | cons c rest ih =>
      intro acc h2 n hn
      rw [List.foldl_cons] at hn
      refine ih _ ?_ n hn
      intro m hm
      rcases List.mem_append.mp hm with h | h
      · exact h2 m h
      · rw [List.mem_singleton.mp h]
        exact finalSheetNameFor_length _ _ (hg c)

/-- Helper: appending fresh names keeps the accumulated sheet-name list
duplicate-free, as long as no step starts from 100 or more taken names. -/
theorem foldl_names_nodup (g : String → List Char) :
    ∀ (cls : List String) (acc : List (List Char)),
      acc.Nodup → acc.length + cls.length ≤ 100 →
      (cls.foldl (fun acc clause =>
          acc ++ [finalSheetNameFor (g clause) acc]) acc).Nodup := by
  intro cls
  induction cls with
  | nil => intro acc h1 _; exact h1
  | cons c rest ih =>
      intro acc h1 h3
      rw [List.foldl_cons]
      have hacc99 : acc.length ≤ 99 := by
        simp only [List.length_cons] at h3
        omega
      have hnew : finalSheetNameFor (g c) acc ∉ acc :=
        finalSheetNameFor_fresh _ _ hacc99
      have hnodup : (acc ++ [finalSheetNameFor (g c) acc]).Nodup := by
        rw [List.nodup_append]
        exact ⟨h1, List.nodup_singleton _,
          fun x hx hx2 => hnew ((List.mem_singleton.mp hx2) ▸ hx)⟩
      refine ih _ hnodup ?_
      simp only [List.length_append, List.length_cons,
        List.length_nil] at h3 ⊢
      omega

/-- **C10 (amended).**  Every sheet name `exportResultsToExcel` emits is at
most 31 characters long, for every results list; and the sheet names are
pairwise distinct whenever the results contain at most 100 distinct clause
texts.  The distinctness bound is sharp: a duplicate can only come from
the dedup loop's safety break (`counter > 100`) returning the unchecked
name `bn_100` while the 100 pairwise-distinct names `bn_1 … bn_100` are
all in the workbook already, which takes at least 100 earlier sheets — and
the file exhibits colliding workbooks with 101 and with 102 distinct
clauses. -/
theorem sheetNames_nodup_amended (rs : List AnalysisResult) :
    (∀ n ∈ sheetNames rs, n.length ≤ 31)
    ∧ ((clauseOrderOf rs).length ≤ 100 → (sheetNames rs).Nodup) := by
  constructor
  · exact foldl_names_length
      (fun clause => sheetNameFor clause.data (excelClauseIdx rs clause + 1))
      (fun c => sheetNameFor_length _ _) (sortedClauses rs) [] (by simp)
  · intro h
    have hsort : (sortedClauses rs).length = (clauseOrderOf rs).length :=
      (List.perm_insertionSort _ _).length_eq
    exact foldl_names_nodup
      (fun clause => sheetNameFor clause.data (excelClauseIdx rs clause + 1))
      (sortedClauses rs) [] List.nodup_nil (by simpa [hsort] using h)

/-- Witness for C10 (amended) on a one-result list. -/
theorem sheetNames_nodup_amended_witness :
    (∀ n ∈ sheetNames [sampleResult "x" "f.pdf" none], n.length ≤ 31)
    ∧ ((clauseOrderOf [sampleResult "x" "f.pdf" none]).length ≤ 100
       ∧ (sheetNames [sampleResult "x" "f.pdf" none]).Nodup) :=
  ⟨(sheetNames_nodup_amended [sampleResult "x" "f.pdf" none]).1,
   by decide,
   (sheetNames_nodup_amended [sampleResult "x" "f.pdf" none]).2 (by decide)⟩

end CraLegal
